import Mathlib

/-!
Verification of the quiz-delivery core of `app.py`: the difficulty scorer,
the tag-balanced question selector, and the multi-round quiz session state
machine driven by the rerun-based UI.

Code that lives in the external `db` module (question repository,
persistence sink) is not part of the source tree; where a claim depends on
it, it is modelled from the specification's interface description and the
model is marked as such.  Randomness (`random.shuffle`) is modelled by an
oracle `sh : Nat → List Question → List Question` together with the
hypothesis that every call returns a permutation of its input; the `Nat`
index distinguishes the distinct call sites / successive calls.
-/

/-- A question, mirroring the dict shape used throughout `app.py`
(keys `id`, `tag`, `question`, `options`, `answer_index`, `explanation`). -/
structure Question where
  id : Nat
  tag : String
  question : String
  options : List String
  answer_index : Nat
  explanation : String
deriving DecidableEq

/-- Per-question historical counts, mirroring the dict rows of
`get_question_stats` (keys `correct`, `wrong`).  The stored values are DB
integers, so they are modelled as `Int`. -/
structure AnswerStat where
  correct : Int
  wrong : Int
deriving DecidableEq

/-- `_difficulty_score(q, question_stats)` from `app.py` lines 48-56.
`question_stats` is the map from question id to `AnswerStat`, modelled as an
association list; `question_stats.get(q["id"])` is `List.lookup`. -/
def _difficulty_score (q : Question) (question_stats : List (Nat × AnswerStat)) : ℚ :=
  match question_stats.lookup q.id with
  | none => 1/2
  | some stats =>
      let total : Int := stats.correct + stats.wrong
      if total = 0 then 1/2
      else (stats.wrong : ℚ) / (total : ℚ)

/-- Claim C3: the difficulty scorer returns `0.5` when no stat exists for the
question's id or when `correct + wrong = 0`, and `wrong / (correct + wrong)`
otherwise; when the stored counts are non-negative the returned value lies in
`[0, 1]`. -/
theorem difficulty_score_spec (q : Question) (stats : List (Nat × AnswerStat)) :
    (stats.lookup q.id = none → _difficulty_score q stats = 1/2) ∧
    (∀ st, stats.lookup q.id = some st → st.correct + st.wrong = 0 →
      _difficulty_score q stats = 1/2) ∧
    (∀ st, stats.lookup q.id = some st → st.correct + st.wrong ≠ 0 →
      _difficulty_score q stats = (st.wrong : ℚ) / ((st.correct : ℚ) + (st.wrong : ℚ))) ∧
    ((∀ st, stats.lookup q.id = some st → 0 ≤ st.correct ∧ 0 ≤ st.wrong) →
      0 ≤ _difficulty_score q stats ∧ _difficulty_score q stats ≤ 1) := by
  refine ⟨?_, ?_, ?_, ?_⟩
  · intro h
    simp [_difficulty_score, h]
  · intro st h h0
    simp [_difficulty_score, h, h0]
  · intro st h h0
    simp only [_difficulty_score, h]
    rw [if_neg h0]
    push_cast
    ring_nf
  · intro hnn
    cases hlk : stats.lookup q.id with
    | none =>
        simp [_difficulty_score, hlk]
        norm_num
    | some st =>
        obtain ⟨hc, hw⟩ := hnn st hlk
        by_cases h0 : st.correct + st.wrong = 0
        · simp only [_difficulty_score, hlk, h0, if_pos]
          norm_num
        · simp only [_difficulty_score, hlk]
          rw [if_neg h0]
          have hpos : (0 : Int) < st.correct + st.wrong := by
            rcases lt_or_eq_of_le (add_nonneg hc hw) with h | h
            · exact h
            · exact absurd h.symm h0
          have hposQ : (0 : ℚ) < ((st.correct + st.wrong : Int) : ℚ) := by
            exact_mod_cast hpos
          constructor
          · exact div_nonneg (by exact_mod_cast hw) (le_of_lt hposQ)
          · rw [div_le_one hposQ]
            have hcQ : (0 : ℚ) ≤ (st.correct : ℚ) := by exact_mod_cast hc
            push_cast
            linarith

/-- Witness for C3 at a concrete question and stats map. -/
theorem difficulty_score_spec_witness :
    let q : Question :=
      { id := 7, tag := "a", question := "t", options := ["x", "y"],
        answer_index := 0, explanation := "" }
    let stats : List (Nat × AnswerStat) := [(7, { correct := 3, wrong := 1 })]
    (stats.lookup q.id = none → _difficulty_score q stats = 1/2) ∧
    (∀ st, stats.lookup q.id = some st → st.correct + st.wrong = 0 →
      _difficulty_score q stats = 1/2) ∧
    (∀ st, stats.lookup q.id = some st → st.correct + st.wrong ≠ 0 →
      _difficulty_score q stats = (st.wrong : ℚ) / ((st.correct : ℚ) + (st.wrong : ℚ))) ∧
    ((∀ st, stats.lookup q.id = some st → 0 ≤ st.correct ∧ 0 ≤ st.wrong) →
      0 ≤ _difficulty_score q stats ∧ _difficulty_score q stats ≤ 1) :=
  difficulty_score_spec _ _

/-! ## Association-list machinery

Python dicts keyed by tag / test id are modelled as association lists in
insertion order; in-place mutation of one value is `updateVal`. -/

/-- Replace the value stored at key `k` by `f` of it (identity when `k` is
absent); models in-place mutation of one entry of a Python dict. -/
def updateVal {κ β : Type} [DecidableEq κ] (m : List (κ × β)) (k : κ) (f : β → β) :
    List (κ × β) :=
  m.map (fun p => if p.1 = k then (p.1, f p.2) else p)

theorem updateVal_keys {κ β : Type} [DecidableEq κ] (m : List (κ × β)) (k : κ) (f : β → β) :
    (updateVal m k f).map Prod.fst = m.map Prod.fst := by
  induction m with
  | nil => rfl
  | cons p rest ih =>
      simp only [updateVal, List.map_cons] at *
      by_cases h : p.1 = k <;> simp [h, ih]

theorem map_eq_self_of {α : Type} {l : List α} {f : α → α}
    (h : ∀ a ∈ l, f a = a) : l.map f = l := by
  induction l with
  | nil => rfl
  | cons x xs ih =>
      rw [List.map_cons, h x (by simp), ih fun a ha => h a (List.mem_cons_of_mem _ ha)]

theorem lookup_eq_none_iff {κ β : Type} [DecidableEq κ] [BEq κ] [LawfulBEq κ]
    (m : List (κ × β)) (k : κ) :
    m.lookup k = none ↔ k ∉ m.map Prod.fst := by
  induction m with
  | nil => simp
  | cons p rest ih =>
      obtain ⟨a, b⟩ := p
      by_cases h : k = a
      · subst h
        simp [List.lookup]
      · have hb : (k == a) = false := by simpa using h
        simp [List.lookup, hb, ih, h]

theorem lookup_mem {κ β : Type} [DecidableEq κ] [BEq κ] [LawfulBEq κ]
    {m : List (κ × β)} {k : κ} {v : β} (h : m.lookup k = some v) : (k, v) ∈ m := by
  induction m with
  | nil => simp [List.lookup] at h
  | cons p rest ih =>
      obtain ⟨a, b⟩ := p
      by_cases hk : k = a
      · subst hk
        simp only [List.lookup, beq_self_eq_true] at h
        cases h
        exact List.mem_cons_self _ _
      · have hb : (k == a) = false := by simpa using hk
        simp only [List.lookup, hb] at h
        exact List.mem_cons_of_mem _ (ih h)

theorem lookup_of_keysNodup {κ β : Type} [DecidableEq κ] [BEq κ] [LawfulBEq κ]
    {m : List (κ × β)} (hnd : (m.map Prod.fst).Nodup) {k : κ} {v : β}
    (h : (k, v) ∈ m) : m.lookup k = some v := by
  induction m with
  | nil => simp at h
  | cons p rest ih =>
      obtain ⟨a, b⟩ := p
      simp only [List.map_cons, List.nodup_cons] at hnd
      rcases List.mem_cons.mp h with h1 | h1
      · cases h1
        simp [List.lookup]
      · have hk : (k == a) = false := by
          have : k ≠ a := by
            intro he
            exact hnd.1 (List.mem_map.mpr ⟨(k, v), h1, by simp [he]⟩)
          simpa using this
        simp only [List.lookup, hk]
        exact ih hnd.2 h1

theorem lookup_some_decomp {κ β : Type} [DecidableEq κ] [BEq κ] [LawfulBEq κ]
    {m : List (κ × β)} {k : κ} {v : β} (h : m.lookup k = some v) :
    ∃ m₁ m₂, m = m₁ ++ (k, v) :: m₂ ∧ ∀ p ∈ m₁, p.1 ≠ k := by
  induction m with
  | nil => simp [List.lookup] at h
  | cons p rest ih =>
      obtain ⟨a, b⟩ := p
      by_cases hk : k = a
      · subst hk
        simp only [List.lookup, beq_self_eq_true] at h
        cases h
        exact ⟨[], rest, by simp, by simp⟩
      · have hb : (k == a) = false := by simpa using hk
        simp only [List.lookup, hb] at h
        obtain ⟨m₁, m₂, he, hne⟩ := ih h
        refine ⟨(a, b) :: m₁, m₂, by simp [he], ?_⟩
        intro x hx
        rcases List.mem_cons.mp hx with h1 | h1
        · subst h1
          exact fun he2 => hk he2.symm
        · exact hne x h1

theorem updateVal_of_decomp {κ β : Type} [DecidableEq κ]
    {m m₁ m₂ : List (κ × β)} {k : κ} {v : β} (f : β → β)
    (he : m = m₁ ++ (k, v) :: m₂)
    (h₁ : ∀ p ∈ m₁, p.1 ≠ k) (h₂ : ∀ p ∈ m₂, p.1 ≠ k) :
    updateVal m k f = m₁ ++ (k, f v) :: m₂ := by
  subst he
  unfold updateVal
  rw [List.map_append, List.map_cons]
  rw [map_eq_self_of fun p hp => by simp [h₁ p hp]]
  rw [map_eq_self_of fun p hp => by simp [h₂ p hp]]
  simp

theorem mem_updateVal {κ β : Type} [DecidableEq κ]
    {m : List (κ × β)} {k : κ} {f : β → β} {p : κ × β}
    (h : p ∈ updateVal m k f) :
    p ∈ m ∨ ∃ v, (k, v) ∈ m ∧ p = (k, f v) := by
  unfold updateVal at h
  obtain ⟨x, hx, he⟩ := List.mem_map.mp h
  by_cases hk : x.1 = k
  · right
    refine ⟨x.2, ?_, ?_⟩
    · rw [← hk]
      exact hx
    · rw [← he]
      simp [hk]
  · left
    rw [if_neg hk] at he
    rwa [he] at hx

/-- Concatenation of the stored value lists of an association list. -/
def joinVals {κ : Type} (m : List (κ × List Question)) : List Question :=
  (m.map Prod.snd).flatten

theorem joinVals_append {κ : Type} (m₁ m₂ : List (κ × List Question)) :
    joinVals (m₁ ++ m₂) = joinVals m₁ ++ joinVals m₂ := by
  simp [joinVals]

theorem joinVals_cons {κ : Type} (p : κ × List Question) (m : List (κ × List Question)) :
    joinVals (p :: m) = p.2 ++ joinVals m := by
  simp [joinVals]

theorem joinVals_eq_nil {κ : Type} {m : List (κ × List Question)}
    (h : ∀ p ∈ m, p.2 = []) : joinVals m = [] := by
  induction m with
  | nil => rfl
  | cons p rest ih =>
      rw [joinVals_cons, h p (by simp), List.nil_append]
      exact ih fun x hx => h x (List.mem_cons_of_mem _ hx)

/-! ## The balanced selector (`select_balanced_questions`, `app.py` 59-101) -/

/-- The grouping loop of lines 70-75: insert one question into
`questions_by_tag`, appending to the existing entry or creating a new one
(Python dicts keep insertion order). -/
def addToGroup (m : List (String × List Question)) (q : Question) :
    List (String × List Question) :=
  match m.lookup q.tag with
  | some _ => updateVal m q.tag (fun v => v ++ [q])
  | none => m ++ [(q.tag, [q])]

/-- `questions_by_tag` after the loop of lines 70-75. -/
def groupByTag (filtered : List Question) : List (String × List Question) :=
  filtered.foldl addToGroup []

/-- Truthiness of the optional `question_stats` argument: Python's
`if question_stats:` is false both for `None` and for an empty dict. -/
def statsTruthy : Option (List (Nat × AnswerStat)) → Bool
  | none => false
  | some s => !s.isEmpty

/-- Lines 79-82: `sort(key=lambda q: _difficulty_score(q, stats), reverse=True)`
is a stable descending sort by difficulty score. -/
def sortByDifficulty (stats : List (Nat × AnswerStat)) (v : List Question) :
    List Question :=
  v.mergeSort (fun a b => decide (_difficulty_score b stats ≤ _difficulty_score a stats))

/-- Lines 77-84: per-tag group processing in dict order — sort by difficulty
when stats are (truthily) supplied, otherwise shuffle each group.  The `Nat`
argument numbers the successive shuffle calls. -/
def processGroups (question_stats : Option (List (Nat × AnswerStat)))
    (sh : Nat → List Question → List Question) :
    Nat → List (String × List Question) → List (String × List Question)
  | _, [] => []
  | i, (t, v) :: rest =>
      (t, if statsTruthy question_stats then sortByDifficulty (question_stats.getD []) v
          else sh i v) :: processGroups question_stats sh (i + 1) rest

/-- Default used for the (unreachable) out-of-range list index. -/
def defaultTag : String := ""

/-- The value `questions_by_tag[tag]`; line 92's dict access. -/
def lookupGroup (byTag : List (String × List Question)) (t : String) : List Question :=
  (byTag.lookup t).getD []

/-- The round-robin `while` loop of lines 86-98: starting from `selected`,
repeatedly visit `tag_list[tag_index % len(tag_list)]`; pop the head of that
tag's group if non-empty, else drop the tag from the rotation (breaking when
the rotation empties), until `num_questions` items are selected. -/
def roundRobinAux (num_questions : Nat) (selected : List Question)
    (byTag : List (String × List Question)) (tag_list : List String)
    (tag_index : Nat) : List Question :=
  if _hlt : selected.length < num_questions then
    match _htl : tag_list with
    | [] => selected
    | _ :: _ =>
      let tag := tag_list.getD (tag_index % tag_list.length) defaultTag
      match lookupGroup byTag tag with
      | q :: _ =>
          roundRobinAux num_questions (selected ++ [q])
            (updateVal byTag tag List.tail) tag_list (tag_index + 1)
      | [] =>
          let tag_list' := tag_list.erase tag
          if tag_list'.isEmpty then selected
          else roundRobinAux num_questions selected byTag tag_list' (tag_index + 1)
  else selected
termination_by (num_questions - selected.length, tag_list.length)
decreasing_by
  · apply Prod.Lex.left
    simp only [List.length_append, List.length_cons, List.length_nil]
    omega
  · apply Prod.Lex.right'
    · omega
    · rw [← _htl]
      have hlen : tag_index % tag_list.length < tag_list.length := by
        apply Nat.mod_lt
        rw [_htl]
        simp
      have hmem : tag ∈ tag_list := by
        show tag_list.getD (tag_index % tag_list.length) defaultTag ∈ tag_list
        rw [List.getD_eq_getElem _ _ hlen]
        exact List.getElem_mem hlen
      have hle := List.length_erase_of_mem hmem
      have hpos : 0 < tag_list.length := by
        rw [_htl]
        simp
      show (tag_list.erase tag).length < tag_list.length
      omega

/-- `select_balanced_questions(questions, selected_tags, num_questions,
question_stats)` from `app.py` lines 59-101, with the two `random.shuffle`
call sites and the per-group shuffles represented by the oracle `sh`. -/
def select_balanced_questions (sh : Nat → List Question → List Question)
    (questions : List Question) (selected_tags : List String)
    (num_questions : Nat)
    (question_stats : Option (List (Nat × AnswerStat))) : List Question :=
  let filtered := questions.filter (fun q => decide (q.tag ∈ selected_tags))
  if filtered.isEmpty then []
  else if num_questions ≥ filtered.length then sh 0 filtered
  else
    let questions_by_tag := processGroups question_stats sh 2 (groupByTag filtered)
    let tag_list := questions_by_tag.map Prod.fst
    sh 1 (roundRobinAux num_questions [] questions_by_tag tag_list 0)

theorem rr_stop {num : Nat} {sel : List Question} {byTag : List (String × List Question)}
    {tagList : List String} {idx : Nat} (h : ¬ sel.length < num) :
    roundRobinAux num sel byTag tagList idx = sel := by
  rw [roundRobinAux.eq_def]
  simp [h]

theorem rr_nil {num : Nat} {sel : List Question} {byTag : List (String × List Question)}
    {idx : Nat} :
    roundRobinAux num sel byTag [] idx = sel := by
  rw [roundRobinAux.eq_def]
  simp

theorem rr_pop {num : Nat} {sel : List Question} {byTag : List (String × List Question)}
    {tagList : List String} {idx : Nat} (hlt : sel.length < num) (hne : tagList ≠ [])
    {q : Question} {rest : List Question}
    (hq : lookupGroup byTag (tagList.getD (idx % tagList.length) defaultTag) = q :: rest) :
    roundRobinAux num sel byTag tagList idx =
      roundRobinAux num (sel ++ [q])
        (updateVal byTag (tagList.getD (idx % tagList.length) defaultTag) List.tail)
        tagList (idx + 1) := by
  rw [roundRobinAux.eq_def]
  cases tagList with
  | nil => exact absurd rfl hne
  | cons h t =>
      simp only [hlt, dif_pos]
      rw [hq]

theorem rr_erase_stop {num : Nat} {sel : List Question}
    {byTag : List (String × List Question)} {tagList : List String} {idx : Nat}
    (hlt : sel.length < num) (hne : tagList ≠ [])
    (hq : lookupGroup byTag (tagList.getD (idx % tagList.length) defaultTag) = [])
    (hemp : (tagList.erase (tagList.getD (idx % tagList.length) defaultTag)).isEmpty) :
    roundRobinAux num sel byTag tagList idx = sel := by
  rw [roundRobinAux.eq_def]
  cases tagList with
  | nil => exact absurd rfl hne
  | cons h t =>
      simp only [hlt, dif_pos]
      rw [hq]
      simp only [hemp, if_pos]

theorem rr_erase_cont {num : Nat} {sel : List Question}
    {byTag : List (String × List Question)} {tagList : List String} {idx : Nat}
    (hlt : sel.length < num) (hne : tagList ≠ [])
    (hq : lookupGroup byTag (tagList.getD (idx % tagList.length) defaultTag) = [])
    (hemp : ¬ (tagList.erase (tagList.getD (idx % tagList.length) defaultTag)).isEmpty) :
    roundRobinAux num sel byTag tagList idx =
      roundRobinAux num sel byTag
        (tagList.erase (tagList.getD (idx % tagList.length) defaultTag)) (idx + 1) := by
  rw [roundRobinAux.eq_def]
  cases tagList with
  | nil => exact absurd rfl hne
  | cons h t =>
      simp only [hlt, dif_pos]
      rw [hq]
      simp only [hemp, if_neg]
      simp at hemp
      simp [hemp]

theorem lookup_updateVal_ne {κ β : Type} [DecidableEq κ] [BEq κ] [LawfulBEq κ]
    (m : List (κ × β)) (k : κ) (f : β → β) {t : κ} (h : t ≠ k) :
    (updateVal m k f).lookup t = m.lookup t := by
  induction m with
  | nil => rfl
  | cons p rest ih =>
      obtain ⟨a, b⟩ := p
      simp only [updateVal, List.map_cons] at ih ⊢
      by_cases hk : a = k
      · rw [if_pos (show (a, b).1 = k from hk)]
        subst hk
        have hb : (t == a) = false := by simpa using h
        show List.lookup t ((a, f b) :: _) = List.lookup t ((a, b) :: rest)
        simp only [List.lookup, hb]
        exact ih
      · rw [if_neg (show ¬ (a, b).1 = k from hk)]
        show List.lookup t ((a, b) :: _) = List.lookup t ((a, b) :: rest)
        simp only [List.lookup]
        cases hbt : t == a
        · exact ih
        · rfl

theorem lookup_append_of_none {κ β : Type} [DecidableEq κ] [BEq κ] [LawfulBEq κ]
    {m₁ : List (κ × β)} (m₂ : List (κ × β)) {k : κ} (h : m₁.lookup k = none) :
    (m₁ ++ m₂).lookup k = m₂.lookup k := by
  induction m₁ with
  | nil => rfl
  | cons p rest ih =>
      obtain ⟨a, b⟩ := p
      cases hbt : k == a
      · simp only [List.lookup, hbt] at h
        simp only [List.cons_append, List.lookup, hbt]
        exact ih h
      · simp only [List.lookup, hbt] at h
        exact Option.noConfusion h

theorem lookup_append_of_some {κ β : Type} [DecidableEq κ] [BEq κ] [LawfulBEq κ]
    {m₁ : List (κ × β)} (m₂ : List (κ × β)) {k : κ} {v : β} (h : m₁.lookup k = some v) :
    (m₁ ++ m₂).lookup k = some v := by
  induction m₁ with
  | nil => exact Option.noConfusion h
  | cons p rest ih =>
      obtain ⟨a, b⟩ := p
      cases hbt : k == a
      · simp only [List.lookup, hbt] at h
        simp only [List.cons_append, List.lookup, hbt]
        exact ih h
      · simp only [List.lookup, hbt] at h
        simp only [List.cons_append, List.lookup, hbt]
        exact h

/-- The questions of `filtered` carrying tag `t`, in order. -/
def tagFilter (l : List Question) (t : String) : List Question :=
  l.filter (fun q => decide (q.tag = t))

theorem tagFilter_append (l₁ l₂ : List Question) (t : String) :
    tagFilter (l₁ ++ l₂) t = tagFilter l₁ t ++ tagFilter l₂ t := by
  simp [tagFilter]

/-- The three loop invariants of the grouping loop (lines 70-75): distinct
keys, each key's entry is exactly the filter of the processed prefix by that
tag, and the entries jointly enumerate the processed prefix. -/
def GroupInv (m : List (String × List Question)) (pr : List Question) : Prop :=
  ((m.map Prod.fst).Nodup) ∧
  (∀ t, m.lookup t =
      if (tagFilter pr t).isEmpty then none else some (tagFilter pr t)) ∧
  (joinVals m).Perm pr

theorem addToGroup_inv {m : List (String × List Question)} {pr : List Question}
    (hinv : GroupInv m pr) (q : Question) : GroupInv (addToGroup m q) (pr ++ [q]) := by
  obtain ⟨h1, h2, h3⟩ := hinv
  have hself : tagFilter (pr ++ [q]) q.tag = tagFilter pr q.tag ++ [q] := by
    simp [tagFilter_append, tagFilter]
  have hother : ∀ t, t ≠ q.tag → tagFilter (pr ++ [q]) t = tagFilter pr t := by
    intro t ht
    have hone : tagFilter [q] t = [] := by
      simp [tagFilter, Ne.symm ht]
    rw [tagFilter_append, hone, List.append_nil]
  unfold addToGroup
  cases hl : m.lookup q.tag with
  | none =>
      show GroupInv (m ++ [(q.tag, [q])]) (pr ++ [q])
      have hempty : tagFilter pr q.tag = [] := by
        have hx := h2 q.tag
        rw [hl] at hx
        by_cases he : (tagFilter pr q.tag).isEmpty
        · exact List.isEmpty_iff.mp he
        · rw [if_neg he] at hx
          exact absurd hx (by simp)
      have hnotin : q.tag ∉ m.map Prod.fst := (lookup_eq_none_iff m q.tag).mp hl
      refine ⟨?_, ?_, ?_⟩
      · rw [List.map_append]
        simp only [List.map_cons, List.map_nil]
        rw [List.nodup_append]
        exact ⟨h1, List.nodup_singleton _, by simpa using hnotin⟩
      · intro t
        by_cases ht : t = q.tag
        · subst ht
          rw [lookup_append_of_none _ hl]
          simp only [List.lookup, beq_self_eq_true]
          rw [hself, hempty]
          simp
        · have hz : (List.lookup t [(q.tag, [q])]) = none := by
            have hb : (t == q.tag) = false := by simpa using ht
            simp [List.lookup, hb]
          cases hml : m.lookup t with
          | none =>
              rw [lookup_append_of_none _ hml, hz, hother t ht, ← h2 t, hml]
          | some v =>
              rw [lookup_append_of_some _ hml, hother t ht, ← h2 t, hml]
      · rw [joinVals_append, joinVals_cons]
        simp only [joinVals, List.map_nil, List.flatten_nil, List.append_nil]
        exact h3.append_right [q]
  | some v =>
      show GroupInv (updateVal m q.tag (fun v => v ++ [q])) (pr ++ [q])
      obtain ⟨m₁, m₂, he, hne₁⟩ := lookup_some_decomp hl
      have hne₂ : ∀ p ∈ m₂, p.1 ≠ q.tag := by
        intro p hp hpq
        have hnd := h1
        rw [he] at hnd
        simp only [List.map_append, List.map_cons] at hnd
        rcases List.nodup_append.mp hnd with ⟨-, hd2, -⟩
        rw [List.nodup_cons] at hd2
        apply hd2.1
        rw [← hpq]
        exact List.mem_map.mpr ⟨p, hp, rfl⟩
      have hupd := updateVal_of_decomp (fun w => w ++ [q]) he hne₁ hne₂
      have hveq : v = tagFilter pr q.tag := by
        have hx := h2 q.tag
        rw [hl] at hx
        by_cases hemp : (tagFilter pr q.tag).isEmpty
        · rw [if_pos hemp] at hx
          exact absurd hx (by simp)
        · rw [if_neg hemp] at hx
          exact (Option.some_injective _ hx)
      have hkeys : ((updateVal m q.tag (fun w => w ++ [q])).map Prod.fst) = m.map Prod.fst :=
        updateVal_keys m q.tag _
      refine ⟨?_, ?_, ?_⟩
      · rw [hkeys]
        exact h1
      · intro t
        by_cases ht : t = q.tag
        · subst ht
          have hmem : (q.tag, v ++ [q]) ∈ updateVal m q.tag (fun w => w ++ [q]) := by
            rw [hupd]
            simp
          rw [lookup_of_keysNodup (hkeys ▸ h1) hmem, hself, ← hveq]
          simp
        · rw [lookup_updateVal_ne m q.tag _ ht, hother t ht, h2 t]
      · rw [hupd]
        rw [he] at h3
        rw [joinVals_append, joinVals_cons] at h3 ⊢
        apply List.perm_iff_count.mpr
        intro a
        have hc := h3.count_eq a
        simp only [List.count_append] at hc ⊢
        omega

theorem foldl_addToGroup_inv :
    ∀ (l : List Question) (m : List (String × List Question)) (pr : List Question),
      GroupInv m pr → GroupInv (l.foldl addToGroup m) (pr ++ l) := by
  intro l
  induction l with
  | nil =>
      intro m pr h
      simpa using h
  | cons q rest ih =>
      intro m pr h
      have step := addToGroup_inv h q
      have := ih (addToGroup m q) (pr ++ [q]) step
      simpa using this

/-- `questions_by_tag` built by lines 70-75 satisfies the grouping invariant:
distinct keys, entries are the per-tag filters, and the entries enumerate
`filtered` up to permutation. -/
theorem groupByTag_spec (filtered : List Question) : GroupInv (groupByTag filtered) filtered := by
  have hbase : GroupInv [] [] := by
    refine ⟨by simp, ?_, by simp [joinVals]⟩
    intro t
    simp [List.lookup, tagFilter]
  have := foldl_addToGroup_inv filtered [] [] hbase
  simpa [groupByTag] using this

theorem processGroups_keys (qs : Option (List (Nat × AnswerStat)))
    (sh : Nat → List Question → List Question) :
    ∀ (m : List (String × List Question)) (i : Nat),
      (processGroups qs sh i m).map Prod.fst = m.map Prod.fst := by
  intro m
  induction m with
  | nil => intro i; rfl
  | cons p rest ih =>
      intro i
      obtain ⟨t, v⟩ := p
      simp only [processGroups, List.map_cons]
      rw [ih (i + 1)]

theorem processGroups_joinVals_perm (qs : Option (List (Nat × AnswerStat)))
    (sh : Nat → List Question → List Question)
    (hsh : ∀ i l, (sh i l).Perm l) :
    ∀ (m : List (String × List Question)) (i : Nat),
      (joinVals (processGroups qs sh i m)).Perm (joinVals m) := by
  intro m
  induction m with
  | nil => intro i; simp [processGroups]
  | cons p rest ih =>
      intro i
      obtain ⟨t, v⟩ := p
      simp only [processGroups]
      rw [joinVals_cons, joinVals_cons]
      apply List.Perm.append
      · by_cases hs : statsTruthy qs
        · rw [if_pos hs]
          exact List.mergeSort_perm v _
        · rw [if_neg hs]
          exact hsh i v
      · exact ih (i + 1)

theorem joinVals_updateVal_tail_sublist (m : List (String × List Question)) (k : String) :
    (joinVals (updateVal m k List.tail)).Sublist (joinVals m) := by
  induction m with
  | nil => simp [updateVal, joinVals]
  | cons p rest ih =>
      obtain ⟨a, b⟩ := p
      by_cases hk : a = k
      · show (joinVals ((if (a, b).1 = k then ((a, b).1, (a, b).2.tail) else (a, b)) ::
          updateVal rest k List.tail)).Sublist _
        rw [if_pos (show (a, b).1 = k from hk)]
        rw [joinVals_cons, joinVals_cons]
        exact (List.tail_sublist b).append ih
      · show (joinVals ((if (a, b).1 = k then ((a, b).1, (a, b).2.tail) else (a, b)) ::
          updateVal rest k List.tail)).Sublist _
        rw [if_neg (show ¬ (a, b).1 = k from hk)]
        rw [joinVals_cons, joinVals_cons]
        exact (List.Sublist.refl b).append ih

theorem lookupGroup_cons_decomp {byTag : List (String × List Question)} {t : String}
    {q : Question} {rest : List Question} (hq : lookupGroup byTag t = q :: rest) :
    byTag.lookup t = some (q :: rest) := by
  unfold lookupGroup at hq
  cases h : byTag.lookup t with
  | none =>
      rw [h] at hq
      exact absurd hq (by simp)
  | some v =>
      rw [h] at hq
      simp only [Option.getD_some] at hq
      rw [hq]

/-- Whatever the loop does, the selected list is (up to permutation) drawn
without repetition from the initial `selected` plus the grouped questions. -/
theorem roundRobinAux_subperm (num : Nat) :
    ∀ (sel : List Question) (byTag : List (String × List Question))
      (tagList : List String) (idx : Nat),
      (roundRobinAux num sel byTag tagList idx).Subperm (sel ++ joinVals byTag) := by
  intro sel byTag tagList idx
  induction sel, byTag, tagList, idx using roundRobinAux.induct num with
  | case1 sel byTag idx hlt =>
      rw [rr_nil]
      exact (List.sublist_append_left sel _).subperm
  | case2 sel byTag idx hlt head tail q rest tg hq ih =>
      rw [rr_pop hlt (by simp) hq]
      show (roundRobinAux num (sel ++ [q]) (updateVal byTag tg List.tail)
        (head :: tail) (idx + 1)).Subperm (sel ++ joinVals byTag)
      refine ih.trans ?_
      obtain ⟨m₁, m₂, he, hne₁⟩ := lookup_some_decomp (lookupGroup_cons_decomp hq)
      have hupd : updateVal byTag tg List.tail =
          m₁ ++ (tg, rest) :: updateVal m₂ tg List.tail := by
        rw [he]
        unfold updateVal
        rw [List.map_append, List.map_cons]
        rw [map_eq_self_of fun p hp => by simp [hne₁ p hp]]
        rw [if_pos (show (tg, q :: rest).1 = tg from rfl)]
        rfl
      have hJ2 : (joinVals (updateVal m₂ tg List.tail)).Sublist (joinVals m₂) :=
        joinVals_updateVal_tail_sublist m₂ tg
      have hperm : (sel ++ [q] ++ joinVals (updateVal byTag tg List.tail)).Perm
          (sel ++ (joinVals m₁ ++ (q :: rest) ++ joinVals (updateVal m₂ tg List.tail))) := by
        rw [hupd, joinVals_append, joinVals_cons]
        apply List.perm_iff_count.mpr
        intro a
        simp only [List.count_append, List.count_cons]
        by_cases ha : a = q <;> simp [ha] <;> omega
      have hsub : (sel ++ (joinVals m₁ ++ (q :: rest) ++
          joinVals (updateVal m₂ tg List.tail))).Sublist (sel ++ joinVals byTag) := by
        rw [he, joinVals_append, joinVals_cons]
        apply List.Sublist.append_left
        have hs : (joinVals m₁ ++ (q :: rest) ++ joinVals (updateVal m₂ tg List.tail)).Sublist
            (joinVals m₁ ++ (q :: rest) ++ joinVals m₂) :=
          ((List.Sublist.refl _).append hJ2)
        simpa [List.append_assoc] using hs
      exact hperm.subperm.trans hsub.subperm
  | case3 sel byTag idx hlt head tail tg hq tl' hemp =>
      rw [rr_erase_stop hlt (by simp) hq hemp]
      exact (List.sublist_append_left sel _).subperm
  | case4 sel byTag idx hlt head tail tg hq tl' hemp ih =>
      rw [rr_erase_cont hlt (by simp) hq hemp]
      exact ih
  | case5 sel byTag tagList idx hlt =>
      rw [rr_stop hlt]
      exact (List.sublist_append_left sel _).subperm

theorem nodup_keys_right {κ β : Type} {m m₁ m₂ : List (κ × β)} {k : κ} {v : β}
    (hk : (m.map Prod.fst).Nodup) (he : m = m₁ ++ (k, v) :: m₂) :
    ∀ p ∈ m₂, p.1 ≠ k := by
  subst he
  intro p hp hpk
  simp only [List.map_append, List.map_cons] at hk
  rcases List.nodup_append.mp hk with ⟨-, hd2, -⟩
  rw [List.nodup_cons] at hd2
  apply hd2.1
  rw [← hpk]
  exact List.mem_map.mpr ⟨p, hp, rfl⟩

theorem val_nil_of_lookupGroup_nil {byTag : List (String × List Question)} {t : String}
    (hk : (byTag.map Prod.fst).Nodup) (hq : lookupGroup byTag t = [])
    {p : String × List Question} (hp : p ∈ byTag) (hpt : p.1 = t) : p.2 = [] := by
  have hmem : (t, p.2) ∈ byTag := by
    rw [← hpt]
    exact hp
  have hlk : byTag.lookup t = some p.2 := lookup_of_keysNodup hk hmem
  unfold lookupGroup at hq
  rw [hlk] at hq
  simpa using hq

theorem getD_mem_of_ne_nil {l : List String} (h : l ≠ []) (i : Nat) :
    l.getD (i % l.length) defaultTag ∈ l := by
  have hlen : i % l.length < l.length := Nat.mod_lt _ (List.length_pos.mpr h)
  rw [List.getD_eq_getElem _ _ hlen]
  exact List.getElem_mem hlen

theorem eq_singleton_of_erase_isEmpty {l : List String} {a : String}
    (hmem : a ∈ l) (h : (l.erase a).isEmpty) : l = [a] := by
  have h0 : l.erase a = [] := List.isEmpty_iff.mp h
  have hle := List.length_erase_of_mem hmem
  rw [h0] at hle
  simp only [List.length_nil] at hle
  cases l with
  | nil => simp at hmem
  | cons x xs =>
      cases xs with
      | nil =>
          simp only [List.mem_singleton] at hmem
          rw [hmem]
      | cons y ys => simp at hle

/-- The loop of lines 86-98 always collects exactly
`min num_questions (number of remaining grouped questions)` extra items,
provided groups off the rotation are already exhausted. -/
theorem roundRobinAux_length (num : Nat) :
    ∀ (sel : List Question) (byTag : List (String × List Question))
      (tagList : List String) (idx : Nat),
      ((byTag.map Prod.fst).Nodup) →
      (∀ p ∈ byTag, p.1 ∉ tagList → p.2 = []) →
      sel.length ≤ num →
      (roundRobinAux num sel byTag tagList idx).length
        = min num (sel.length + (joinVals byTag).length) := by
  intro sel byTag tagList idx
  induction sel, byTag, tagList, idx using roundRobinAux.induct num with
  | case1 sel byTag idx hlt =>
      intro hk hout hsel
      rw [rr_nil]
      rw [joinVals_eq_nil (fun p hp => hout p hp (by simp))]
      simp only [List.length_nil, Nat.add_zero]
      omega
  | case2 sel byTag idx hlt head tail q rest tg hq ih =>
      intro hk hout hsel
      rw [rr_pop hlt (by simp) hq]
      show (roundRobinAux num (sel ++ [q]) (updateVal byTag tg List.tail)
        (head :: tail) (idx + 1)).length = _
      have htg_mem : tg ∈ head :: tail := getD_mem_of_ne_nil (by simp) idx
      obtain ⟨m₁, m₂, he, hne₁⟩ := lookup_some_decomp (lookupGroup_cons_decomp hq)
      have hne₂ : ∀ p ∈ m₂, p.1 ≠ tg := nodup_keys_right hk he
      have hupd := updateVal_of_decomp List.tail he hne₁ hne₂
      have hk' : ((updateVal byTag tg List.tail).map Prod.fst).Nodup := by
        rw [updateVal_keys]
        exact hk
      have hout' : ∀ p ∈ updateVal byTag tg List.tail, p.1 ∉ (head :: tail) → p.2 = [] := by
        intro p hp hnotin
        rcases mem_updateVal hp with hmem | ⟨v, hv, hpe⟩
        · exact hout p hmem hnotin
        · exfalso
          apply hnotin
          rw [hpe]
          exact htg_mem
      have hsel' : (sel ++ [q]).length ≤ num := by
        simp only [List.length_append, List.length_cons, List.length_nil]
        omega
      rw [ih hk' hout' hsel', hupd, joinVals_append, joinVals_cons, he,
        joinVals_append, joinVals_cons]
      simp only [List.length_append, List.length_cons, List.length_nil, List.tail_cons]
      omega
  | case3 sel byTag idx hlt head tail tg hq tl' hemp =>
      intro hk hout hsel
      rw [rr_erase_stop hlt (by simp) hq hemp]
      have htg_mem : tg ∈ head :: tail := getD_mem_of_ne_nil (by simp) idx
      have hsingle : (head :: tail) = [tg] := eq_singleton_of_erase_isEmpty htg_mem hemp
      have hJ : joinVals byTag = [] := by
        apply joinVals_eq_nil
        intro p hp
        by_cases hpt : p.1 = tg
        · exact val_nil_of_lookupGroup_nil hk hq hp hpt
        · apply hout p hp
          rw [hsingle]
          simpa using hpt
      rw [hJ]
      simp only [List.length_nil, Nat.add_zero]
      omega
  | case4 sel byTag idx hlt head tail tg hq tl' hemp ih =>
      intro hk hout hsel
      rw [rr_erase_cont hlt (by simp) hq hemp]
      apply ih hk ?_ hsel
      intro p hp hnotin
      by_cases hpt : p.1 = tg
      · exact val_nil_of_lookupGroup_nil hk hq hp hpt
      · apply hout p hp
        intro hin
        apply hnotin
        exact (List.mem_erase_of_ne hpt).mpr hin
  | case5 sel byTag tagList idx hlt =>
      intro hk hout hsel
      rw [rr_stop hlt]
      omega

theorem subperm_nodup {l₁ l₂ : List Question} (h : l₁.Subperm l₂) (hn : l₂.Nodup) :
    l₁.Nodup := by
  obtain ⟨l', hp, hs⟩ := h
  exact hp.nodup_iff.mp (hs.nodup hn)

/-- Claim C1 (amended with the no-duplicate-pool hypothesis): for a pool
without duplicate questions, every tag filter and every count, the selector
returns only questions whose tag is in the filter, without duplicates, of
length `min count |filtered|`; and when `count ≥ |filtered|` the result
equals the filtered pool as a set. -/
theorem select_balanced_spec (sh : Nat → List Question → List Question)
    (hsh : ∀ i l, (sh i l).Perm l)
    (questions : List Question) (selected_tags : List String)
    (num_questions : Nat) (question_stats : Option (List (Nat × AnswerStat)))
    (hnd : questions.Nodup) :
    (∀ q ∈ select_balanced_questions sh questions selected_tags num_questions question_stats,
        q.tag ∈ selected_tags) ∧
    (select_balanced_questions sh questions selected_tags num_questions question_stats).Nodup ∧
    (select_balanced_questions sh questions selected_tags num_questions question_stats).length
      = min num_questions (questions.filter (fun q => decide (q.tag ∈ selected_tags))).length ∧
    ((questions.filter (fun q => decide (q.tag ∈ selected_tags))).length ≤ num_questions →
      ∀ q, q ∈ select_balanced_questions sh questions selected_tags num_questions question_stats ↔
        q ∈ questions.filter (fun q => decide (q.tag ∈ selected_tags))) := by
  set filtered := questions.filter (fun q => decide (q.tag ∈ selected_tags)) with hfil
  have hfil_nd : filtered.Nodup := hnd.filter _
  have htag_of_mem : ∀ q ∈ filtered, q.tag ∈ selected_tags := by
    intro q hq
    have := List.of_mem_filter hq
    simpa using this
  by_cases hemp : filtered.isEmpty
  · have hsel : select_balanced_questions sh questions selected_tags num_questions
        question_stats = [] := by
      simp only [select_balanced_questions]
      rw [← hfil, if_pos hemp]
    have hfil0 : filtered = [] := List.isEmpty_iff.mp hemp
    rw [hsel, hfil0]
    simp
  · by_cases hge : num_questions ≥ filtered.length
    · have hsel : select_balanced_questions sh questions selected_tags num_questions
          question_stats = sh 0 filtered := by
        simp only [select_balanced_questions]
        rw [← hfil, if_neg hemp, if_pos hge]
      have hperm : (sh 0 filtered).Perm filtered := hsh 0 filtered
      rw [hsel]
      refine ⟨?_, ?_, ?_, ?_⟩
      · intro q hq
        exact htag_of_mem q (hperm.mem_iff.mp hq)
      · exact hperm.nodup_iff.mpr hfil_nd
      · rw [hperm.length_eq, Nat.min_eq_right hge]
      · intro _ q
        exact hperm.mem_iff
    · have hsel : select_balanced_questions sh questions selected_tags num_questions
          question_stats = sh 1 (roundRobinAux num_questions []
            (processGroups question_stats sh 2 (groupByTag filtered))
            ((processGroups question_stats sh 2 (groupByTag filtered)).map Prod.fst) 0) := by
        simp only [select_balanced_questions]
        rw [← hfil, if_neg hemp, if_neg hge]
      obtain ⟨hk0, hlook0, hjoin0⟩ := groupByTag_spec filtered
      set groups := processGroups question_stats sh 2 (groupByTag filtered) with hgr
      have hkeys : groups.map Prod.fst = (groupByTag filtered).map Prod.fst :=
        processGroups_keys question_stats sh (groupByTag filtered) 2
      have hjoin : (joinVals groups).Perm filtered :=
        (processGroups_joinVals_perm question_stats sh hsh (groupByTag filtered) 2).trans hjoin0
      set rr := roundRobinAux num_questions [] groups (groups.map Prod.fst) 0 with hrr
      have hsp : rr.Subperm filtered := by
        have h1 := roundRobinAux_subperm num_questions [] groups (groups.map Prod.fst) 0
        simp only [List.nil_append] at h1
        exact h1.trans hjoin.subperm
      have hper : (sh 1 rr).Perm rr := hsh 1 rr
      have hlen : rr.length = min num_questions filtered.length := by
        have h2 := roundRobinAux_length num_questions [] groups (groups.map Prod.fst) 0
          (by rw [hkeys]; exact hk0)
          (fun p hp hnot => absurd (List.mem_map.mpr ⟨p, hp, rfl⟩) hnot)
          (by simp)
        rw [h2, hjoin.length_eq]
        simp
      rw [hsel]
      refine ⟨?_, ?_, ?_, ?_⟩
      · intro q hq
        exact htag_of_mem q (hsp.subset (hper.mem_iff.mp hq))
      · exact hper.nodup_iff.mpr (subperm_nodup hsp hfil_nd)
      · rw [hper.length_eq, hlen]
      · intro hcon
        omega

/-- Counterexample to C1 as stated (over arbitrary pools): the identity
shuffle is a permutation, yet on the pool holding the same question twice,
with its tag selected and `count = 2 ≥ |filtered|`, the selector returns that
pool itself, which contains a duplicate. -/
theorem select_balanced_dup_counterexample :
    (∀ i (l : List Question), ((fun (_ : Nat) (l : List Question) => l) i l).Perm l) ∧
    select_balanced_questions (fun _ l => l)
      [{ id := 1, tag := "a", question := "x", options := ["u", "v"],
         answer_index := 0, explanation := "" },
       { id := 1, tag := "a", question := "x", options := ["u", "v"],
         answer_index := 0, explanation := "" }] ["a"] 2 none
      = [{ id := 1, tag := "a", question := "x", options := ["u", "v"],
           answer_index := 0, explanation := "" },
         { id := 1, tag := "a", question := "x", options := ["u", "v"],
           answer_index := 0, explanation := "" }] ∧
    ¬ ([{ id := 1, tag := "a", question := "x", options := ["u", "v"],
          answer_index := 0, explanation := "" },
        { id := 1, tag := "a", question := "x", options := ["u", "v"],
          answer_index := 0, explanation := "" }] : List Question).Nodup := by
  refine ⟨fun i l => List.Perm.refl l, by decide, by decide⟩

/-- Witness for the amended C1 at a concrete pool, filter and count. -/
theorem select_balanced_spec_witness :
    let sh : Nat → List Question → List Question := fun _ l => l
    let qa : Question :=
      { id := 1, tag := "a", question := "x", options := ["u", "v"],
        answer_index := 0, explanation := "" }
    let qb : Question :=
      { id := 2, tag := "b", question := "y", options := ["u", "v"],
        answer_index := 1, explanation := "" }
    (∀ q ∈ select_balanced_questions sh [qa, qb] ["a"] 1 none, q.tag ∈ ["a"]) ∧
    (select_balanced_questions sh [qa, qb] ["a"] 1 none).Nodup ∧
    (select_balanced_questions sh [qa, qb] ["a"] 1 none).length
      = min 1 (([qa, qb] : List Question).filter (fun q => decide (q.tag ∈ ["a"]))).length ∧
    ((([qa, qb] : List Question).filter (fun q => decide (q.tag ∈ ["a"]))).length ≤ 1 →
      ∀ q, q ∈ select_balanced_questions sh [qa, qb] ["a"] 1 none ↔
        q ∈ ([qa, qb] : List Question).filter (fun q => decide (q.tag ∈ ["a"]))) :=
  select_balanced_spec (fun _ l => l) (fun i l => List.Perm.refl l) _ _ 1 none (by decide)

theorem roundRobin_two {t₁ t₂ : String} (hne : t₁ ≠ t₂) (q₁ q₂ : Question)
    (r₁ r₂ : List Question) :
    roundRobinAux 2 [] [(t₁, q₁ :: r₁), (t₂, q₂ :: r₂)] [t₁, t₂] 0 = [q₁, q₂] := by
  have hb21 : (t₂ == t₁) = false := by simpa using (Ne.symm hne)
  have h1 : lookupGroup [(t₁, q₁ :: r₁), (t₂, q₂ :: r₂)]
      ([t₁, t₂].getD (0 % [t₁, t₂].length) defaultTag) = q₁ :: r₁ := by
    simp [lookupGroup, List.lookup, List.getD]
  rw [rr_pop (by simp) (by simp) h1]
  have hupd : updateVal [(t₁, q₁ :: r₁), (t₂, q₂ :: r₂)]
      ([t₁, t₂].getD (0 % [t₁, t₂].length) defaultTag) List.tail
      = [(t₁, r₁), (t₂, q₂ :: r₂)] := by
    simp [updateVal, List.getD, Ne.symm hne]
  rw [hupd]
  have h2 : lookupGroup [(t₁, r₁), (t₂, q₂ :: r₂)]
      ([t₁, t₂].getD (1 % [t₁, t₂].length) defaultTag) = q₂ :: r₂ := by
    simp [lookupGroup, List.lookup, List.getD, hb21]
  rw [rr_pop (by simp) (by simp) h2]
  rw [rr_stop (by simp)]
  rfl

theorem keys_pair_cases {l : List String} {A B : String} (hAB : A ≠ B)
    (hnd : l.Nodup) (hmem : ∀ t, t ∈ l ↔ t = A ∨ t = B) :
    l = [A, B] ∨ l = [B, A] := by
  cases l with
  | nil =>
      have := (hmem A).mpr (Or.inl rfl)
      simp at this
  | cons x xs =>
      cases xs with
      | nil =>
          have hA := (hmem A).mpr (Or.inl rfl)
          have hB := (hmem B).mpr (Or.inr rfl)
          simp only [List.mem_singleton] at hA hB
          exact absurd (hA.trans hB.symm) hAB
      | cons y ys =>
          cases ys with
          | nil =>
              have hx := (hmem x).mp (by simp)
              have hy := (hmem y).mp (by simp)
              have hxy : x ≠ y := by
                rw [List.nodup_cons] at hnd
                intro he
                exact hnd.1 (by simp [he])
              rcases hx with hx | hx <;> rcases hy with hy | hy
              · exact absurd (hx.trans hy.symm) hxy
              · left
                rw [hx, hy]
              · right
                rw [hx, hy]
              · exact absurd (hx.trans hy.symm) hxy
          | cons z zs =>
              exfalso
              have hx := (hmem x).mp (by simp)
              have hy := (hmem y).mp (by simp)
              have hz := (hmem z).mp (by simp)
              simp only [List.nodup_cons, List.mem_cons] at hnd
              have hxy : x ≠ y := fun he => hnd.1 (Or.inl he)
              have hxz : x ≠ z := fun he => hnd.1 (Or.inr (by simp [he]))
              have hyz : y ≠ z := fun he => hnd.2.1 (by simp [he])
              rcases hx with hx | hx <;> rcases hy with hy | hy <;>
                rcases hz with hz | hz
              · exact hxy (hx.trans hy.symm)
              · exact hxy (hx.trans hy.symm)
              · exact hxz (hx.trans hz.symm)
              · exact hyz (hy.trans hz.symm)
              · exact hyz (hy.trans hz.symm)
              · exact hxz (hx.trans hz.symm)
              · exact hxy (hx.trans hy.symm)
              · exact hxy (hx.trans hy.symm)

theorem map_fst_pair {m : List (String × List Question)} {x y : String}
    (h : m.map Prod.fst = [x, y]) : ∃ u v, m = [(x, u), (y, v)] := by
  cases m with
  | nil => simp at h
  | cons p m' =>
      cases m' with
      | nil => simp at h
      | cons p2 m'' =>
          cases m'' with
          | nil =>
              simp only [List.map_cons, List.map_nil, List.cons.injEq, and_true] at h
              obtain ⟨h1, h2⟩ := h
              exact ⟨p.2, p2.2, by
                rw [← h1, ← h2]⟩
          | cons p3 m''' => simp at h

/-- Claim C2: with exactly two tags A (three questions) and B (one question)
in the pool, both selected, and a budget of two questions, the selection
always contains the single B question, whatever the shuffles and stats. -/
theorem roundRobin_tag_coverage (sh : Nat → List Question → List Question)
    (hsh : ∀ i l, (sh i l).Perm l)
    (pool : List Question) (question_stats : Option (List (Nat × AnswerStat)))
    (A B : String) (hAB : A ≠ B) (b : Question)
    (hA : (tagFilter pool A).length = 3)
    (hB : tagFilter pool B = [b])
    (hcov : ∀ q ∈ pool, q.tag = A ∨ q.tag = B) :
    b ∈ select_balanced_questions sh pool [A, B] 2 question_stats := by
  have hfl : pool.filter (fun q => decide (q.tag ∈ [A, B])) = pool := by
    apply List.filter_eq_self.mpr
    intro q hq
    rcases hcov q hq with h | h <;> simp [h]
  have hBeq : pool.filter (fun q => !decide (q.tag = A)) = tagFilter pool B := by
    apply List.filter_congr
    intro q hq
    rcases hcov q hq with h | h
    · simp [tagFilter, h, hAB]
    · simp [tagFilter, h, Ne.symm hAB]
  have hlen4 : pool.length = 4 := by
    have hc := (pool.filter_append_perm (fun q => decide (q.tag = A))).length_eq
    rw [List.length_append, hBeq, hB] at hc
    have hA' : (pool.filter (fun q => decide (q.tag = A))).length = 3 := hA
    rw [hA'] at hc
    simpa using hc.symm
  have hemp : ¬ (pool.isEmpty = true) := by
    intro h
    rw [List.isEmpty_iff.mp h] at hlen4
    simp at hlen4
  have hge : ¬ ((2 : Nat) ≥ pool.length) := by omega
  have hsel : select_balanced_questions sh pool [A, B] 2 question_stats
      = sh 1 (roundRobinAux 2 []
          (processGroups question_stats sh 2 (groupByTag pool))
          ((processGroups question_stats sh 2 (groupByTag pool)).map Prod.fst) 0) := by
    simp only [select_balanced_questions]
    rw [hfl, if_neg hemp, if_neg hge]
  obtain ⟨hk0, hlook, hjoin⟩ := groupByTag_spec pool
  have hAne : ¬ ((tagFilter pool A).isEmpty = true) := by
    intro h
    rw [List.isEmpty_iff.mp h] at hA
    simp at hA
  have hBne : ¬ ((tagFilter pool B).isEmpty = true) := by
    rw [hB]
    simp
  have hkeymem : ∀ t, t ∈ (groupByTag pool).map Prod.fst ↔ t = A ∨ t = B := by
    intro t
    constructor
    · intro ht
      by_contra hcon
      push_neg at hcon
      have hfe : tagFilter pool t = [] := by
        apply List.filter_eq_nil_iff.mpr
        intro q hq
        rcases hcov q hq with h | h
        · simp only [h, decide_eq_true_eq]
          exact fun he => hcon.1 he.symm
        · simp only [h, decide_eq_true_eq]
          exact fun he => hcon.2 he.symm
      have hnone : (groupByTag pool).lookup t = none := by
        rw [hlook t, hfe]
        simp
      exact ((lookup_eq_none_iff _ t).mp hnone) ht
    · intro ht
      have hsome : (groupByTag pool).lookup t ≠ none := by
        rw [hlook t]
        rcases ht with h | h
        · subst h
          rw [if_neg hAne]
          simp
        · subst h
          rw [if_neg hBne]
          simp
      by_contra hnk
      exact hsome ((lookup_eq_none_iff _ t).mpr hnk)
  have hproc_perm : ∀ i (v : List Question),
      (if statsTruthy question_stats
        then sortByDifficulty (question_stats.getD []) v else sh i v).Perm v := by
    intro i v
    by_cases hs : statsTruthy question_stats
    · rw [if_pos hs]
      exact List.mergeSort_perm v _
    · rw [if_neg hs]
      exact hsh i v
  rcases keys_pair_cases hAB hk0 hkeymem with hcase | hcase
  · obtain ⟨u, v, hG⟩ := map_fst_pair hcase
    have hu : u = tagFilter pool A := by
      have h1 := hlook A
      rw [hG, if_neg hAne] at h1
      simp only [List.lookup, beq_self_eq_true] at h1
      exact Option.some_injective _ h1
    have hv : v = [b] := by
      have h1 := hlook B
      have hb2 : (B == A) = false := by simpa using (Ne.symm hAB)
      rw [hG, if_neg hBne] at h1
      simp only [List.lookup, hb2, beq_self_eq_true] at h1
      rw [hB] at h1
      exact Option.some_injective _ h1
    have hPG : processGroups question_stats sh 2 (groupByTag pool)
        = [(A, if statsTruthy question_stats
                then sortByDifficulty (question_stats.getD []) u else sh 2 u),
           (B, if statsTruthy question_stats
                then sortByDifficulty (question_stats.getD []) v else sh 3 v)] := by
      rw [hG]
      rfl
    have hpB : (if statsTruthy question_stats
        then sortByDifficulty (question_stats.getD []) v else sh 3 v) = [b] := by
      apply List.perm_singleton.mp
      rw [← hv]
      exact hproc_perm 3 v
    have hpA_len : (if statsTruthy question_stats
        then sortByDifficulty (question_stats.getD []) u else sh 2 u).length = 3 := by
      rw [(hproc_perm 2 u).length_eq, hu]
      exact hA
    cases hcA : (if statsTruthy question_stats
        then sortByDifficulty (question_stats.getD []) u else sh 2 u) with
    | nil =>
        rw [hcA] at hpA_len
        simp at hpA_len
    | cons q₁ r₁ =>
        rw [hsel, hPG, hpB, hcA]
        have hrr := roundRobin_two hAB q₁ b r₁ []
        simp only [List.map_cons, List.map_nil]
        rw [hrr]
        exact (hsh 1 [q₁, b]).mem_iff.mpr (by simp)
  · obtain ⟨u, v, hG⟩ := map_fst_pair hcase
    have hu : u = [b] := by
      have h1 := hlook B
      rw [hG, if_neg hBne] at h1
      simp only [List.lookup, beq_self_eq_true] at h1
      rw [hB] at h1
      exact Option.some_injective _ h1
    have hv : v = tagFilter pool A := by
      have h1 := hlook A
      have hb2 : (A == B) = false := by simpa using hAB
      rw [hG, if_neg hAne] at h1
      simp only [List.lookup, hb2, beq_self_eq_true] at h1
      exact Option.some_injective _ h1
    have hPG : processGroups question_stats sh 2 (groupByTag pool)
        = [(B, if statsTruthy question_stats
                then sortByDifficulty (question_stats.getD []) u else sh 2 u),
           (A, if statsTruthy question_stats
                then sortByDifficulty (question_stats.getD []) v else sh 3 v)] := by
      rw [hG]
      rfl
    have hpB : (if statsTruthy question_stats
        then sortByDifficulty (question_stats.getD []) u else sh 2 u) = [b] := by
      apply List.perm_singleton.mp
      rw [← hu]
      exact hproc_perm 2 u
    have hpA_len : (if statsTruthy question_stats
        then sortByDifficulty (question_stats.getD []) v else sh 3 v).length = 3 := by
      rw [(hproc_perm 3 v).length_eq, hv]
      exact hA
    cases hcA : (if statsTruthy question_stats
        then sortByDifficulty (question_stats.getD []) v else sh 3 v) with
    | nil =>
        rw [hcA] at hpA_len
        simp at hpA_len
    | cons q₁ r₁ =>
        rw [hsel, hPG, hpB, hcA]
        have hrr := roundRobin_two (Ne.symm hAB) b q₁ ([] : List Question) r₁
        simp only [List.map_cons, List.map_nil]
        rw [hrr]
        exact (hsh 1 [b, q₁]).mem_iff.mpr (by simp)

/-- Witness for C2 at a concrete four-question pool. -/
theorem roundRobin_tag_coverage_witness :
    ({ id := 4, tag := "b", question := "y", options := ["u", "v"],
       answer_index := 0, explanation := "" } : Question) ∈
      select_balanced_questions (fun _ l => l)
        [{ id := 1, tag := "a", question := "x1", options := ["u", "v"],
           answer_index := 0, explanation := "" },
         { id := 2, tag := "a", question := "x2", options := ["u", "v"],
           answer_index := 0, explanation := "" },
         { id := 3, tag := "a", question := "x3", options := ["u", "v"],
           answer_index := 0, explanation := "" },
         { id := 4, tag := "b", question := "y", options := ["u", "v"],
           answer_index := 0, explanation := "" }] ["a", "b"] 2 none :=
  roundRobin_tag_coverage (fun _ l => l) (fun i l => List.Perm.refl l) _ none
    "a" "b" (by decide) _ (by decide) (by decide) (by decide)

/-! ## The quiz session state machine (`show_quiz`, `app.py` 277-438)

The Streamlit rerun model is embedded as an explicit state record (the
`st.session_state` keys touched by the quiz flow) and a step function: one
rerun of `show_quiz` given which widget (if any) fired.  Writes to the
external collaborators (`record_answer`, `create_session`,
`update_session_score`) are collected as a list of effects. -/

/-- One entry of `round_history` (lines 297-302): keys `round`, `score`,
`total`, `wrong`. -/
structure RoundRec where
  round : Nat
  score : Nat
  total : Nat
  wrong : List Question
deriving DecidableEq

/-- The `st.session_state` keys driving the quiz flow (set up at lines
261-272). -/
structure QuizState where
  questions : List Question
  current_index : Nat
  score : Nat
  answered : Bool
  selected_answer : Option Nat
  wrong_questions : List Question
  round_history : List RoundRec
  current_round : Nat
  current_test_id : Nat
  current_session_id : Option Nat
  session_score_saved : Bool
deriving DecidableEq

/-- Calls made to the external collaborators during one rerun. -/
inductive Effect where
  | recordAnswer (user_id : Nat) (test_id : Nat) (question_id : Nat)
      (is_correct : Bool) (session_id : Option Nat)
  | createSession (user_id : Nat) (test_id : Nat) (score : Nat) (total : Nat)
  | updateSessionScore (session_id : Nat) (score : Nat) (total : Nat)
deriving DecidableEq

/-- Placeholder question for the (guarded) out-of-range list access. -/
def defaultQuestion : Question :=
  { id := 0, tag := "", question := "", options := [], answer_index := 0,
    explanation := "" }

/-- Truthiness of the optional session id (`if ... session_id and ...`):
Python treats both `None` and `0` as falsy. -/
def sessionTruthy : Option Nat → Bool
  | none => false
  | some sid => decide (sid ≠ 0)

/-- The option-button handler, lines 392-408: record the pick, mark the
question answered, bump the score or append to the wrong list, and (when
logged in) notify the history repository. -/
def submitAnswer (logged_in : Bool) (user_id : Nat) (s : QuizState) (i : Nat) :
    QuizState × List Effect :=
  let question := s.questions.getD s.current_index defaultQuestion
  let is_correct := decide (i = question.answer_index)
  ({ s with
      selected_answer := some i,
      answered := true,
      score := if is_correct then s.score + 1 else s.score,
      wrong_questions :=
        if is_correct then s.wrong_questions else s.wrong_questions ++ [question] },
   if logged_in then
     [Effect.recordAnswer user_id s.current_test_id question.id is_correct
       s.current_session_id]
   else [])

/-- The `Siguiente pregunta` handler, lines 429-433. -/
def advanceQuestion (s : QuizState) : QuizState :=
  { s with
      current_index := s.current_index + 1,
      answered := false,
      selected_answer := none }

/-- `reset_quiz()` (lines 104-111) deletes every quiz key; modelled as the
pristine state. -/
def resetQuiz : QuizState :=
  { questions := [], current_index := 0, score := 0, answered := false,
    selected_answer := none, wrong_questions := [], round_history := [],
    current_round := 1, current_test_id := 0, current_session_id := none,
    session_score_saved := false }

/-- The unconditional part of the completion view, lines 282-303: save the
session score once (guarded by the saved-flag) and append the round record
to the history once (guarded by its length). -/
def completionStep (logged_in : Bool) (s : QuizState) : QuizState × List Effect :=
  let score := s.score
  let total := s.questions.length
  let saveScore := logged_in && sessionTruthy s.current_session_id
      && !s.session_score_saved
  let effects :=
    if saveScore then
      [Effect.updateSessionScore (s.current_session_id.getD 0) score total]
    else []
  let s₁ := if saveScore then { s with session_score_saved := true } else s
  let s₂ :=
    if s₁.round_history.length < s.current_round then
      { s₁ with round_history := s₁.round_history ++
          [{ round := s.current_round, score := score, total := total,
             wrong := s.wrong_questions }] }
    else s₁
  (s₂, effects)

/-- The `Repetir preguntas falladas` handler, lines 347-366: shuffle the
wrong list into a fresh round, open a fresh session record when logged in,
and reset the per-round keys. -/
def repeatWrongStep (logged_in : Bool) (user_id : Nat)
    (sh : Nat → List Question → List Question) (new_sid : Nat) (s : QuizState) :
    QuizState × List Effect :=
  let next_round := s.current_round + 1
  let wrong := sh 0 s.wrong_questions
  let effects :=
    if logged_in then
      [Effect.createSession user_id s.current_test_id 0 wrong.length]
    else []
  let new_session_id := if logged_in then some new_sid else none
  ({ s with
      questions := wrong, current_index := 0, score := 0, answered := false,
      selected_answer := none, wrong_questions := [],
      current_round := next_round, current_session_id := new_session_id,
      session_score_saved := false },
   effects)

/-- Which widget (if any) fired during a rerun of `show_quiz`. -/
inductive QuizEvent where
  | optionClick (i : Nat)
  | nextClick
  | repeatClick
  | homeClick
  | abandonClick
  | rerender
deriving DecidableEq

/-- One rerun of `show_quiz` (lines 277-438).  The completion view (index
past the end) always performs `completionStep`; a button handler only runs
when its widget was rendered in that view — the repeat button exists only
when the wrong list is non-empty, the option buttons only before answering,
and the advance button only after answering. -/
def stepQuiz (logged_in : Bool) (user_id : Nat)
    (sh : Nat → List Question → List Question) (new_sid : Nat)
    (s : QuizState) (e : QuizEvent) : QuizState × List Effect :=
  if s.questions.length ≤ s.current_index then
    let c := completionStep logged_in s
    if ¬ c.1.wrong_questions.isEmpty ∧ e = QuizEvent.repeatClick then
      let r := repeatWrongStep logged_in user_id sh new_sid c.1
      (r.1, c.2 ++ r.2)
    else if e = QuizEvent.homeClick then (resetQuiz, c.2)
    else (c.1, c.2)
  else
    let question := s.questions.getD s.current_index defaultQuestion
    match e with
    | QuizEvent.optionClick i =>
        if s.answered = false ∧ i < question.options.length then
          submitAnswer logged_in user_id s i
        else (s, [])
    | QuizEvent.nextClick =>
        if s.answered then (advanceQuestion s, []) else (s, [])
    | QuizEvent.abandonClick => (resetQuiz, [])
    | _ => (s, [])

/-- The accumulated-summary sums of lines 323-324. -/
def aggregate (round_history : List RoundRec) : Nat × Nat :=
  (round_history.foldl (fun acc r => acc + r.score) 0,
   round_history.foldl (fun acc r => acc + r.total) 0)
/-- Claim C4: in a `Presenting(i)` state, submitting option `i` bumps the
score by one exactly when `i` is the answer index, appends the question to
the wrong list exactly when it is not, moves to `Answered(i)` with the pick
recorded, and leaves the question list and current index unchanged. -/
theorem submit_answer_spec (logged_in : Bool) (user_id : Nat)
    (sh : Nat → List Question → List Question) (new_sid : Nat)
    (s : QuizState) (i : Nat)
    (hidx : s.current_index < s.questions.length)
    (hans : s.answered = false)
    (hopt : i < (s.questions.getD s.current_index defaultQuestion).options.length) :
    ((stepQuiz logged_in user_id sh new_sid s (QuizEvent.optionClick i)).1.score
        = s.score + 1 ↔
      i = (s.questions.getD s.current_index defaultQuestion).answer_index) ∧
    ((stepQuiz logged_in user_id sh new_sid s (QuizEvent.optionClick i)).1.wrong_questions
        = s.wrong_questions ++ [s.questions.getD s.current_index defaultQuestion] ↔
      i ≠ (s.questions.getD s.current_index defaultQuestion).answer_index) ∧
    (stepQuiz logged_in user_id sh new_sid s (QuizEvent.optionClick i)).1.answered = true ∧
    (stepQuiz logged_in user_id sh new_sid s (QuizEvent.optionClick i)).1.selected_answer
      = some i ∧
    (stepQuiz logged_in user_id sh new_sid s (QuizEvent.optionClick i)).1.current_index
      = s.current_index ∧
    (stepQuiz logged_in user_id sh new_sid s (QuizEvent.optionClick i)).1.questions
      = s.questions := by
  have hstep : stepQuiz logged_in user_id sh new_sid s (QuizEvent.optionClick i)
      = submitAnswer logged_in user_id s i := by
    simp only [stepQuiz]
    rw [if_neg (by omega)]
    show (if s.answered = false ∧ i < (s.questions.getD s.current_index
        defaultQuestion).options.length then submitAnswer logged_in user_id s i
      else (s, [])) = submitAnswer logged_in user_id s i
    rw [if_pos ⟨hans, hopt⟩]
  rw [hstep]
  simp only [submitAnswer]
  by_cases hc : i = (s.questions.getD s.current_index defaultQuestion).answer_index
  · simp [hc]
  · simp [hc]

/-- Witness for C4 at a concrete presenting state. -/
theorem submit_answer_spec_witness :
    let q : Question :=
      { id := 1, tag := "a", question := "x", options := ["u", "v"],
        answer_index := 0, explanation := "e" }
    let s : QuizState :=
      { questions := [q],
        current_index := 0, score := 0, answered := false, selected_answer := none,
        wrong_questions := [], round_history := [], current_round := 1,
        current_test_id := 5, current_session_id := some 9,
        session_score_saved := false }
    let sh : Nat → List Question → List Question := fun _ l => l
    ((stepQuiz true 3 sh 0 s (QuizEvent.optionClick 1)).1.score = s.score + 1 ↔
      1 = (s.questions.getD s.current_index defaultQuestion).answer_index) ∧
    ((stepQuiz true 3 sh 0 s (QuizEvent.optionClick 1)).1.wrong_questions
        = s.wrong_questions ++ [s.questions.getD s.current_index defaultQuestion] ↔
      1 ≠ (s.questions.getD s.current_index defaultQuestion).answer_index) ∧
    (stepQuiz true 3 sh 0 s (QuizEvent.optionClick 1)).1.answered = true ∧
    (stepQuiz true 3 sh 0 s (QuizEvent.optionClick 1)).1.selected_answer = some 1 ∧
    (stepQuiz true 3 sh 0 s (QuizEvent.optionClick 1)).1.current_index = s.current_index ∧
    (stepQuiz true 3 sh 0 s (QuizEvent.optionClick 1)).1.questions = s.questions :=
  submit_answer_spec true 3 (fun _ l => l) 0 _ 1 (by decide) (by decide) (by decide)

theorem completionStep_fields (logged_in : Bool) (s : QuizState) :
    (completionStep logged_in s).1.questions = s.questions ∧
    (completionStep logged_in s).1.current_index = s.current_index ∧
    (completionStep logged_in s).1.score = s.score ∧
    (completionStep logged_in s).1.wrong_questions = s.wrong_questions ∧
    (completionStep logged_in s).1.current_round = s.current_round ∧
    (completionStep logged_in s).1.current_test_id = s.current_test_id ∧
    (completionStep logged_in s).1.answered = s.answered ∧
    (completionStep logged_in s).1.current_session_id = s.current_session_id := by
  simp only [completionStep]
  split <;> split <;> simp

theorem completionStep_effects (logged_in : Bool) (s : QuizState) :
    (completionStep logged_in s).2 = [] ∨
    ∃ sid sc tot, (completionStep logged_in s).2 = [Effect.updateSessionScore sid sc tot] := by
  simp only [completionStep]
  split
  · right
    exact ⟨_, _, _, rfl⟩
  · left
    rfl

/-- Claim C5: from a completed round, the repeat-wrong handler does nothing
when the wrong list is empty (no new round, no new persisted session); when
it is non-empty it starts a round over exactly the wrong questions (as a
set), with round number one higher, opening a fresh session record for the
same test when logged in. -/
theorem repeat_wrong_spec (logged_in : Bool) (user_id : Nat)
    (sh : Nat → List Question → List Question) (hsh : ∀ i l, (sh i l).Perm l)
    (new_sid : Nat) (s : QuizState)
    (hcomp : s.questions.length ≤ s.current_index) :
    (s.wrong_questions = [] →
      (stepQuiz logged_in user_id sh new_sid s QuizEvent.repeatClick).1
        = (completionStep logged_in s).1 ∧
      (stepQuiz logged_in user_id sh new_sid s QuizEvent.repeatClick).1.current_round
        = s.current_round ∧
      (stepQuiz logged_in user_id sh new_sid s QuizEvent.repeatClick).1.questions
        = s.questions ∧
      (∀ u t sc tot, Effect.createSession u t sc tot ∉
        (stepQuiz logged_in user_id sh new_sid s QuizEvent.repeatClick).2)) ∧
    (s.wrong_questions ≠ [] →
      (∀ q, q ∈ (stepQuiz logged_in user_id sh new_sid s QuizEvent.repeatClick).1.questions
        ↔ q ∈ s.wrong_questions) ∧
      (stepQuiz logged_in user_id sh new_sid s QuizEvent.repeatClick).1.current_round
        = s.current_round + 1 ∧
      (stepQuiz logged_in user_id sh new_sid s QuizEvent.repeatClick).1.current_index = 0 ∧
      (logged_in = true →
        Effect.createSession user_id s.current_test_id 0 s.wrong_questions.length ∈
          (stepQuiz logged_in user_id sh new_sid s QuizEvent.repeatClick).2 ∧
        (stepQuiz logged_in user_id sh new_sid s QuizEvent.repeatClick).1.current_session_id
          = some new_sid)) := by
  obtain ⟨hq, hidx, hsc, hwr, hrd, htid, hans, hsid⟩ := completionStep_fields logged_in s
  constructor
  · intro hempty
    have hstep : stepQuiz logged_in user_id sh new_sid s QuizEvent.repeatClick
        = ((completionStep logged_in s).1, (completionStep logged_in s).2) := by
      simp only [stepQuiz]
      rw [if_pos hcomp]
      rw [if_neg (by
        intro hcon
        rw [hwr, hempty] at hcon
        simp at hcon)]
      rw [if_neg (by simp)]
    rw [hstep]
    refine ⟨rfl, hrd, hq, ?_⟩
    intro u t sc tot hmem
    rcases completionStep_effects logged_in s with heff | ⟨sid, sc2, tot2, heff⟩ <;>
      rw [heff] at hmem <;> simp at hmem
  · intro hnonempty
    have hstep : stepQuiz logged_in user_id sh new_sid s QuizEvent.repeatClick
        = ((repeatWrongStep logged_in user_id sh new_sid (completionStep logged_in s).1).1,
           (completionStep logged_in s).2 ++
           (repeatWrongStep logged_in user_id sh new_sid (completionStep logged_in s).1).2) := by
      simp only [stepQuiz]
      rw [if_pos hcomp]
      rw [if_pos ⟨by
        rw [hwr]
        simpa [List.isEmpty_iff] using hnonempty, by trivial⟩]
    rw [hstep]
    refine ⟨?_, ?_, ?_, ?_⟩
    · intro q
      show q ∈ sh 0 (completionStep logged_in s).1.wrong_questions ↔ _
      rw [hwr]
      exact (hsh 0 s.wrong_questions).mem_iff
    · show (completionStep logged_in s).1.current_round + 1 = s.current_round + 1
      rw [hrd]
    · rfl
    · intro hli
      constructor
      · apply List.mem_append_right
        show Effect.createSession user_id s.current_test_id 0 s.wrong_questions.length ∈
          (if logged_in then [Effect.createSession user_id
            (completionStep logged_in s).1.current_test_id 0
            (sh 0 (completionStep logged_in s).1.wrong_questions).length] else [])
        rw [if_pos hli, htid, hwr, (hsh 0 s.wrong_questions).length_eq]
        simp
      · show (if logged_in then some new_sid else none) = some new_sid
        rw [if_pos hli]

/-- Witness for C5 at a concrete completed round with one wrong question. -/
theorem repeat_wrong_spec_witness :
    let q : Question :=
      { id := 1, tag := "a", question := "x", options := ["u", "v"],
        answer_index := 0, explanation := "e" }
    let s : QuizState :=
      { questions := [q],
        current_index := 1, score := 0, answered := false, selected_answer := none,
        wrong_questions := [q], round_history := [], current_round := 1,
        current_test_id := 5, current_session_id := some 9,
        session_score_saved := false }
    let sh : Nat → List Question → List Question := fun _ l => l
    (s.wrong_questions = [] →
      (stepQuiz true 3 sh 12 s QuizEvent.repeatClick).1 = (completionStep true s).1 ∧
      (stepQuiz true 3 sh 12 s QuizEvent.repeatClick).1.current_round = s.current_round ∧
      (stepQuiz true 3 sh 12 s QuizEvent.repeatClick).1.questions = s.questions ∧
      (∀ u t sc tot, Effect.createSession u t sc tot ∉
        (stepQuiz true 3 sh 12 s QuizEvent.repeatClick).2)) ∧
    (s.wrong_questions ≠ [] →
      (∀ q2, q2 ∈ (stepQuiz true 3 sh 12 s QuizEvent.repeatClick).1.questions
        ↔ q2 ∈ s.wrong_questions) ∧
      (stepQuiz true 3 sh 12 s QuizEvent.repeatClick).1.current_round
        = s.current_round + 1 ∧
      (stepQuiz true 3 sh 12 s QuizEvent.repeatClick).1.current_index = 0 ∧
      (true = true →
        Effect.createSession 3 s.current_test_id 0 s.wrong_questions.length ∈
          (stepQuiz true 3 sh 12 s QuizEvent.repeatClick).2 ∧
        (stepQuiz true 3 sh 12 s QuizEvent.repeatClick).1.current_session_id
          = some 12)) :=
  repeat_wrong_spec true 3 (fun _ l => l) (fun i l => List.Perm.refl l) 12 _ (by decide)

theorem foldl_add_map {α : Type} (f : α → Nat) :
    ∀ (l : List α) (a : Nat), l.foldl (fun acc r => acc + f r) a = a + (l.map f).sum := by
  intro l
  induction l with
  | nil => intro a; simp
  | cons x xs ih =>
      intro a
      rw [List.foldl_cons, ih (a + f x), List.map_cons, List.sum_cons]
      omega

/-- Claim C6: the accumulated summary is pure summation over the recorded
round history — `correctAll = Σ score`, `totalAll = Σ total` — and on the
rounds `(8 of 10)` then `(3 of 3)` it yields `11` of `13`. -/
theorem aggregate_spec :
    (∀ h : List RoundRec,
      aggregate h = ((h.map RoundRec.score).sum, (h.map RoundRec.total).sum)) ∧
    (∀ w₁ w₂ : List Question,
      aggregate [{ round := 1, score := 8, total := 10, wrong := w₁ },
                 { round := 2, score := 3, total := 3, wrong := w₂ }] = (11, 13)) := by
  constructor
  · intro h
    unfold aggregate
    rw [foldl_add_map RoundRec.score h 0, foldl_add_map RoundRec.total h 0]
    simp
  · intro w₁ w₂
    rfl

/-- Iterated re-rendering of the current view with no widget interaction. -/
def rerenderSteps (logged_in : Bool) (user_id : Nat)
    (sh : Nat → List Question → List Question) (new_sid : Nat) :
    Nat → QuizState → QuizState × List Effect
  | 0, s => (s, [])
  | k + 1, s =>
      let r := stepQuiz logged_in user_id sh new_sid s QuizEvent.rerender
      let rest := rerenderSteps logged_in user_id sh new_sid k r.1
      (rest.1, r.2 ++ rest.2)

def isScoreUpdate : Effect → Bool
  | Effect.updateSessionScore _ _ _ => true
  | _ => false

theorem stepRerender_cases (logged_in : Bool) (user_id : Nat)
    (sh : Nat → List Question → List Question) (new_sid : Nat) (s : QuizState) :
    ((stepQuiz logged_in user_id sh new_sid s QuizEvent.rerender).2.countP isScoreUpdate = 0 ∧
      (stepQuiz logged_in user_id sh new_sid s QuizEvent.rerender).1.session_score_saved
        = s.session_score_saved) ∨
    ((stepQuiz logged_in user_id sh new_sid s QuizEvent.rerender).2.countP isScoreUpdate = 1 ∧
      (stepQuiz logged_in user_id sh new_sid s QuizEvent.rerender).1.session_score_saved
        = true) := by
  by_cases hcomp : s.questions.length ≤ s.current_index
  · have hstep : stepQuiz logged_in user_id sh new_sid s QuizEvent.rerender
        = ((completionStep logged_in s).1, (completionStep logged_in s).2) := by
      simp only [stepQuiz]
      rw [if_pos hcomp]
      rw [if_neg (by simp)]
      rw [if_neg (by simp)]
    rw [hstep]
    simp only [completionStep]
    by_cases hsv : (logged_in && sessionTruthy s.current_session_id
        && !s.session_score_saved) = true
    · right
      rw [if_pos hsv, if_pos hsv]
      constructor
      · simp [isScoreUpdate]
      · split <;> rfl
    · left
      rw [if_neg hsv, if_neg hsv]
      constructor
      · simp
      · split <;> rfl
  · left
    have hstep : stepQuiz logged_in user_id sh new_sid s QuizEvent.rerender = (s, []) := by
      simp only [stepQuiz]
      rw [if_neg hcomp]
    rw [hstep]
    exact ⟨rfl, rfl⟩

theorem stepRerender_saved (logged_in : Bool) (user_id : Nat)
    (sh : Nat → List Question → List Question) (new_sid : Nat) (s : QuizState)
    (hsv : s.session_score_saved = true) :
    (stepQuiz logged_in user_id sh new_sid s QuizEvent.rerender).2.countP isScoreUpdate = 0 ∧
    (stepQuiz logged_in user_id sh new_sid s QuizEvent.rerender).1.session_score_saved
      = true := by
  rcases stepRerender_cases logged_in user_id sh new_sid s with ⟨h1, h2⟩ | ⟨h1, h2⟩
  · exact ⟨h1, h2.trans hsv⟩
  · refine ⟨?_, h2⟩
    exfalso
    by_cases hcomp : s.questions.length ≤ s.current_index
    · have hstep : stepQuiz logged_in user_id sh new_sid s QuizEvent.rerender
          = ((completionStep logged_in s).1, (completionStep logged_in s).2) := by
        simp only [stepQuiz]
        rw [if_pos hcomp]
        rw [if_neg (by simp)]
        rw [if_neg (by simp)]
      rw [hstep] at h1
      simp only [completionStep, hsv] at h1
      simp at h1
    · have hstep : stepQuiz logged_in user_id sh new_sid s QuizEvent.rerender = (s, []) := by
        simp only [stepQuiz]
        rw [if_neg hcomp]
      rw [hstep] at h1
      simp at h1

theorem rerenderSteps_saved (logged_in : Bool) (user_id : Nat)
    (sh : Nat → List Question → List Question) (new_sid : Nat) :
    ∀ (k : Nat) (s : QuizState), s.session_score_saved = true →
      (rerenderSteps logged_in user_id sh new_sid k s).2.countP isScoreUpdate = 0 := by
  intro k
  induction k with
  | zero => intro s _; rfl
  | succ k ih =>
      intro s hsv
      obtain ⟨h1, h2⟩ := stepRerender_saved logged_in user_id sh new_sid s hsv
      simp only [rerenderSteps, List.countP_append]
      rw [h1, ih _ h2]

/-- Claim C7: however many times the completion view re-renders, the stored
session score is updated at most once; once the saved-flag is set, a
re-render performs no further update. -/
theorem duplicate_score_update_guard (logged_in : Bool) (user_id : Nat)
    (sh : Nat → List Question → List Question) (new_sid : Nat) :
    (∀ (k : Nat) (s : QuizState),
      (rerenderSteps logged_in user_id sh new_sid k s).2.countP isScoreUpdate ≤ 1) ∧
    (∀ s : QuizState, s.session_score_saved = true →
      (stepQuiz logged_in user_id sh new_sid s QuizEvent.rerender).2.countP
        isScoreUpdate = 0) := by
  constructor
  · intro k
    induction k with
    | zero => intro s; simp [rerenderSteps]
    | succ k ih =>
        intro s
        simp only [rerenderSteps, List.countP_append]
        rcases stepRerender_cases logged_in user_id sh new_sid s with ⟨h1, -⟩ | ⟨h1, h2⟩
        · rw [h1]
          simpa using ih _
        · rw [h1, rerenderSteps_saved logged_in user_id sh new_sid k _ h2]
  · intro s hsv
    exact (stepRerender_saved logged_in user_id sh new_sid s hsv).1

/-- Claim C8 (amended): invoking submitAnswer outside `Presenting`, or
advance outside `Answered`, is silently ignored — the corresponding widget is
not rendered, so the rerun leaves the state unchanged and performs no
external call (in particular the score is not mutated); no error is
raised. -/
theorem invalid_transition_spec (logged_in : Bool) (user_id : Nat)
    (sh : Nat → List Question → List Question) (new_sid : Nat)
    (s : QuizState) (i : Nat)
    (hidx : s.current_index < s.questions.length) :
    (s.answered = true →
      stepQuiz logged_in user_id sh new_sid s (QuizEvent.optionClick i) = (s, [])) ∧
    (s.answered = false →
      stepQuiz logged_in user_id sh new_sid s QuizEvent.nextClick = (s, [])) := by
  constructor
  · intro hans
    simp only [stepQuiz]
    rw [if_neg (by omega)]
    show (if s.answered = false ∧ i < (s.questions.getD s.current_index
        defaultQuestion).options.length then submitAnswer logged_in user_id s i
      else (s, [])) = (s, [])
    rw [if_neg (by
      intro hcon
      rw [hans] at hcon
      simp at hcon)]
  · intro hans
    simp only [stepQuiz]
    rw [if_neg (by omega)]
    show (if s.answered = true then (advanceQuestion s, ([] : List Effect))
      else (s, [])) = (s, [])
    rw [if_neg (by
      rw [hans]
      simp)]

/-- Counterexample to C8 as stated: a second answer submitted in an
`Answered` state, and an advance requested in a `Presenting` state, are both
silently ignored — the rerun returns the state unchanged with no effects and
signals no error — rather than being rejected with an error. -/
theorem invalid_transition_counterexample :
    let q : Question :=
      { id := 1, tag := "a", question := "x", options := ["u", "v"],
        answer_index := 0, explanation := "e" }
    let sAnswered : QuizState :=
      { questions := [q],
        current_index := 0, score := 1, answered := true, selected_answer := some 0,
        wrong_questions := [], round_history := [], current_round := 1,
        current_test_id := 5, current_session_id := some 9,
        session_score_saved := false }
    let sPresenting : QuizState :=
      { questions := [q],
        current_index := 0, score := 0, answered := false, selected_answer := none,
        wrong_questions := [], round_history := [], current_round := 1,
        current_test_id := 5, current_session_id := some 9,
        session_score_saved := false }
    stepQuiz true 3 (fun _ l => l) 0 sAnswered (QuizEvent.optionClick 1)
      = (sAnswered, []) ∧
    stepQuiz true 3 (fun _ l => l) 0 sPresenting QuizEvent.nextClick
      = (sPresenting, []) := by
  constructor
  · rfl
  · rfl

/-- Witness for the amended C8 at the same concrete states. -/
theorem invalid_transition_spec_witness :
    let q : Question :=
      { id := 1, tag := "a", question := "x", options := ["u", "v"],
        answer_index := 0, explanation := "e" }
    let s : QuizState :=
      { questions := [q],
        current_index := 0, score := 1, answered := true, selected_answer := some 0,
        wrong_questions := [], round_history := [], current_round := 1,
        current_test_id := 5, current_session_id := some 9,
        session_score_saved := false }
    (s.answered = true →
      stepQuiz true 3 (fun _ l => l) 0 s (QuizEvent.optionClick 1) = (s, [])) ∧
    (s.answered = false →
      stepQuiz true 3 (fun _ l => l) 0 s QuizEvent.nextClick = (s, [])) :=
  invalid_transition_spec true 3 (fun _ l => l) 0 _ 1 (by decide)

/-! ## Practising wrong answers across sessions
(`show_dashboard` lines 495-515 and `_start_quiz_from_wrong`, lines 518-554) -/

/-- One row of `get_session_wrong_answers`: a `(test_id, question_id)`
reference.  A NULL/absent test id is modelled as `0`, which is exactly what
Python's `if tid:` treats as falsy. -/
structure WrongRef where
  test_id : Nat
  question_id : Nat
deriving DecidableEq

/-- The pair `(w["test_id"], w["question_id"])` used as dedup key. -/
def refPair (w : WrongRef) : Nat × Nat := (w.test_id, w.question_id)

/-- The dedup loop of `show_dashboard` lines 504-511: keep the first
occurrence of each `(test_id, question_id)` pair, preserving order. -/
def dedupRefsAux (seen : List (Nat × Nat)) (acc : List WrongRef) :
    List WrongRef → List WrongRef
  | [] => acc
  | w :: rest =>
      if refPair w ∈ seen then dedupRefsAux seen acc rest
      else dedupRefsAux (seen ++ [refPair w]) (acc ++ [w]) rest

def dedupRefs (all_wrong : List WrongRef) : List WrongRef :=
  dedupRefsAux [] [] all_wrong

/-- Python's `set.add`: insert a question id if not already present
(`by_test.setdefault(...).add(...)`); the set is modelled as its list of
elements in insertion order. -/
def setInsert (s : List Nat) (x : Nat) : List Nat :=
  if x ∈ s then s else s ++ [x]

/-- One step of the `by_test` grouping loop (lines 520-522). -/
def addRefToByTest (m : List (Nat × List Nat)) (w : WrongRef) : List (Nat × List Nat) :=
  match m.lookup w.test_id with
  | some _ => updateVal m w.test_id (fun s => setInsert s w.question_id)
  | none => m ++ [(w.test_id, [w.question_id])]

/-- The `by_test` dict after the grouping loop. -/
def buildByTest (wrong_refs : List WrongRef) : List (Nat × List Nat) :=
  wrong_refs.foldl addRefToByTest []

/-- Modelled from the spec: `get_test_questions_by_ids` lives in the external
`db` module, absent from `src/`; per §6 (`questionsByIds(testId, ids) ->
list<Question>`) it resolves each requested id of a test to that test's
question with that id, here through an abstract resolver
`resolve : testId → questionId → Question`. -/
def get_test_questions_by_ids (resolve : Nat → Nat → Question)
    (tid : Nat) (ids : List Nat) : List Question :=
  ids.map (resolve tid)

/-- The accumulation step of the loop at lines 526-530: groups with a falsy
test id are skipped; otherwise the group's questions are appended and
`test_id` is overwritten. -/
def quizFromWrongStep (resolve : Nat → Nat → Question) :
    List Question × Option Nat → Nat × List Nat → List Question × Option Nat :=
  fun acc p =>
    if p.1 ≠ 0 then (acc.1 ++ get_test_questions_by_ids resolve p.1 p.2, some p.1)
    else acc

/-- `_start_quiz_from_wrong(wrong_refs)`, lines 518-554: group the refs by
test id, resolve each group, bail out if nothing resolved, else shuffle,
open a session record for the last truthy test id and initialise the quiz
state. -/
def _start_quiz_from_wrong (resolve : Nat → Nat → Question)
    (sh : Nat → List Question → List Question) (user_id : Nat) (new_sid : Nat)
    (wrong_refs : List WrongRef) : Option (QuizState × List Effect) :=
  let by_test := buildByTest wrong_refs
  let acc := by_test.foldl (quizFromWrongStep resolve) ([], none)
  if acc.1.isEmpty then none
  else
    let quiz_questions := sh 0 acc.1
    let tid := acc.2.getD 0
    some ({ questions := quiz_questions, current_index := 0, score := 0,
            answered := false, selected_answer := none, wrong_questions := [],
            round_history := [], current_round := 1, current_test_id := tid,
            current_session_id := some new_sid, session_score_saved := false },
          [Effect.createSession user_id tid 0 quiz_questions.length])

/-- The `Practicar preguntas falladas` pipeline of `show_dashboard`:
order-preserving dedup of the selected sessions' refs, then
`_start_quiz_from_wrong`. -/
def practiceSelected (resolve : Nat → Nat → Question)
    (sh : Nat → List Question → List Question) (user_id : Nat) (new_sid : Nat)
    (all_wrong : List WrongRef) : Option (QuizState × List Effect) :=
  _start_quiz_from_wrong resolve sh user_id new_sid (dedupRefs all_wrong)

theorem dedupRefsAux_pairs :
    ∀ (l : List WrongRef) (seen : List (Nat × Nat)) (acc : List WrongRef),
      (∀ p, p ∈ seen ↔ ∃ w ∈ acc, refPair w = p) →
      ∀ p, (∃ w ∈ dedupRefsAux seen acc l, refPair w = p) ↔
        ((∃ w ∈ acc, refPair w = p) ∨ ∃ w ∈ l, refPair w = p) := by
  intro l
  induction l with
  | nil =>
      intro seen acc hinv p
      simp [dedupRefsAux]
  | cons w rest ih =>
      intro seen acc hinv p
      by_cases hseen : refPair w ∈ seen
      · rw [dedupRefsAux, if_pos hseen]
        rw [ih seen acc hinv p]
        constructor
        · rintro (h | h)
          · exact Or.inl h
          · exact Or.inr ⟨h.choose, List.mem_cons_of_mem _ h.choose_spec.1, h.choose_spec.2⟩
        · rintro (h | ⟨w2, hw2, hp⟩)
          · exact Or.inl h
          · rcases List.mem_cons.mp hw2 with he | he
            · subst he
              subst hp
              exact Or.inl ((hinv (refPair w2)).mp hseen)
            · exact Or.inr ⟨w2, he, hp⟩
      · rw [dedupRefsAux, if_neg hseen]
        have hinv2 : ∀ p, p ∈ seen ++ [refPair w] ↔ ∃ w2 ∈ acc ++ [w], refPair w2 = p := by
          intro p2
          rw [List.mem_append, hinv p2]
          constructor
          · rintro (⟨w2, hw2, hp⟩ | hp)
            · exact ⟨w2, List.mem_append_left _ hw2, hp⟩
            · simp only [List.mem_singleton] at hp
              exact ⟨w, List.mem_append_right _ (by simp), hp.symm⟩
          · rintro ⟨w2, hw2, hp⟩
            rcases List.mem_append.mp hw2 with hm | hm
            · exact Or.inl ⟨w2, hm, hp⟩
            · simp only [List.mem_singleton] at hm
              subst hm
              simp [← hp]
        rw [ih _ _ hinv2 p]
        constructor
        · rintro (⟨w2, hw2, hp⟩ | h)
          · rcases List.mem_append.mp hw2 with hm | hm
            · exact Or.inl ⟨w2, hm, hp⟩
            · simp only [List.mem_singleton] at hm
              subst hm
              exact Or.inr ⟨w2, by simp, hp⟩
          · exact Or.inr ⟨h.choose, List.mem_cons_of_mem _ h.choose_spec.1, h.choose_spec.2⟩
        · rintro (h | ⟨w2, hw2, hp⟩)
          · exact Or.inl ⟨h.choose, List.mem_append_left _ h.choose_spec.1, h.choose_spec.2⟩
          · rcases List.mem_cons.mp hw2 with he | he
            · subst he
              exact Or.inl ⟨w2, List.mem_append_right _ (by simp), hp⟩
            · exact Or.inr ⟨w2, he, hp⟩

theorem dedupRefs_pairs (all_wrong : List WrongRef) :
    ∀ p, (∃ w ∈ dedupRefs all_wrong, refPair w = p) ↔ ∃ w ∈ all_wrong, refPair w = p := by
  intro p
  have := dedupRefsAux_pairs all_wrong [] [] (by simp) p
  rw [dedupRefs, this]
  simp

/-- Invariant of the `by_test` grouping loop: distinct test-id keys; a test
id has no entry exactly when no processed ref mentions it; an entry is the
duplicate-free list of that test's referenced question ids. -/
def ByTestInv (m : List (Nat × List Nat)) (pr : List WrongRef) : Prop :=
  ((m.map Prod.fst).Nodup) ∧
  (∀ t, m.lookup t = none → ∀ w ∈ pr, w.test_id ≠ t) ∧
  (∀ t v, m.lookup t = some v →
    v.Nodup ∧ (∀ q, q ∈ v ↔ ∃ w ∈ pr, w.test_id = t ∧ w.question_id = q))

theorem addRefToByTest_inv {m : List (Nat × List Nat)} {pr : List WrongRef}
    (hinv : ByTestInv m pr) (w : WrongRef) :
    ByTestInv (addRefToByTest m w) (pr ++ [w]) := by
  obtain ⟨h1, h2, h3⟩ := hinv
  unfold addRefToByTest
  cases hl : m.lookup w.test_id with
  | none =>
      show ByTestInv (m ++ [(w.test_id, [w.question_id])]) (pr ++ [w])
      have hnotin : w.test_id ∉ m.map Prod.fst := (lookup_eq_none_iff m w.test_id).mp hl
      refine ⟨?_, ?_, ?_⟩
      · rw [List.map_append]
        simp only [List.map_cons, List.map_nil]
        rw [List.nodup_append]
        exact ⟨h1, List.nodup_singleton _, by simpa using hnotin⟩
      · intro t hnone w2 hw2
        by_cases ht : t = w.test_id
        · subst ht
          rw [lookup_append_of_none _ hl] at hnone
          simp [List.lookup] at hnone
        · have hz : (List.lookup t [(w.test_id, [w.question_id])]) = none := by
            have hb : (t == w.test_id) = false := by simpa using ht
            simp [List.lookup, hb]
          rcases List.mem_append.mp hw2 with hm | hm
          · cases hml : m.lookup t with
            | none => exact h2 t hml w2 hm
            | some v =>
                rw [lookup_append_of_some _ hml] at hnone
                exact Option.noConfusion hnone
          · simp only [List.mem_singleton] at hm
            subst hm
            exact fun he => ht he.symm
      · intro t v hv
        by_cases ht : t = w.test_id
        · subst ht
          rw [lookup_append_of_none _ hl] at hv
          simp only [List.lookup, beq_self_eq_true] at hv
          cases hv
          refine ⟨List.nodup_singleton _, ?_⟩
          intro q
          simp only [List.mem_singleton]
          constructor
          · intro hq
            exact ⟨w, List.mem_append_right _ (by simp), rfl, hq.symm⟩
          · rintro ⟨w2, hw2, hteq, hqeq⟩
            rcases List.mem_append.mp hw2 with hm | hm
            · exact absurd hteq (h2 w.test_id hl w2 hm)
            · simp only [List.mem_singleton] at hm
              subst hm
              exact hqeq.symm
        · have hz : (List.lookup t [(w.test_id, [w.question_id])]) = none := by
            have hb : (t == w.test_id) = false := by simpa using ht
            simp [List.lookup, hb]
          cases hml : m.lookup t with
          | none =>
              rw [lookup_append_of_none _ hml, hz] at hv
              exact Option.noConfusion hv
          | some v2 =>
              rw [lookup_append_of_some _ hml] at hv
              cases hv
              obtain ⟨hnd, hiff⟩ := h3 t v hml
              refine ⟨hnd, ?_⟩
              intro q
              rw [hiff q]
              constructor
              · rintro ⟨w2, hw2, hp⟩
                exact ⟨w2, List.mem_append_left _ hw2, hp⟩
              · rintro ⟨w2, hw2, hp⟩
                rcases List.mem_append.mp hw2 with hm | hm
                · exact ⟨w2, hm, hp⟩
                · simp only [List.mem_singleton] at hm
                  subst hm
                  exact absurd hp.1 (fun he => ht he.symm)
  | some v =>
      show ByTestInv (updateVal m w.test_id (fun s => setInsert s w.question_id)) (pr ++ [w])
      obtain ⟨m₁, m₂, he, hne₁⟩ := lookup_some_decomp hl
      have hne₂ : ∀ p ∈ m₂, p.1 ≠ w.test_id := nodup_keys_right h1 he
      have hupd := updateVal_of_decomp (fun s => setInsert s w.question_id) he hne₁ hne₂
      have hkeys := updateVal_keys m w.test_id (fun s => setInsert s w.question_id)
      obtain ⟨hvnd, hviff⟩ := h3 w.test_id v hl
      refine ⟨hkeys ▸ h1, ?_, ?_⟩
      · intro t hnone w2 hw2
        by_cases ht : t = w.test_id
        · subst ht
          have hmem : (w.test_id, setInsert v w.question_id) ∈
              updateVal m w.test_id (fun s => setInsert s w.question_id) := by
            rw [hupd]
            simp
          rw [lookup_of_keysNodup (hkeys ▸ h1) hmem] at hnone
          exact Option.noConfusion hnone
        · rw [lookup_updateVal_ne m w.test_id _ ht] at hnone
          rcases List.mem_append.mp hw2 with hm | hm
          · exact h2 t hnone w2 hm
          · simp only [List.mem_singleton] at hm
            subst hm
            exact fun heq => ht heq.symm
      · intro t v2 hv2
        by_cases ht : t = w.test_id
        · subst ht
          have hmem : (w.test_id, setInsert v w.question_id) ∈
              updateVal m w.test_id (fun s => setInsert s w.question_id) := by
            rw [hupd]
            simp
          rw [lookup_of_keysNodup (hkeys ▸ h1) hmem] at hv2
          cases hv2
          constructor
          · unfold setInsert
            split
            · exact hvnd
            · rw [List.nodup_append]
              refine ⟨hvnd, List.nodup_singleton _, ?_⟩
              simpa using (by assumption : ¬ w.question_id ∈ v)
          · intro q
            have hset : q ∈ setInsert v w.question_id ↔ q ∈ v ∨ q = w.question_id := by
              unfold setInsert
              split
              · constructor
                · exact fun h => Or.inl h
                · rintro (h | h)
                  · exact h
                  · subst h
                    assumption
              · simp [List.mem_append]
            rw [hset, hviff q]
            constructor
            · rintro (⟨w2, hw2, hp⟩ | hq)
              · exact ⟨w2, List.mem_append_left _ hw2, hp⟩
              · exact ⟨w, List.mem_append_right _ (by simp), rfl, hq.symm⟩
            · rintro ⟨w2, hw2, hteq, hqeq⟩
              rcases List.mem_append.mp hw2 with hm | hm
              · exact Or.inl ⟨w2, hm, hteq, hqeq⟩
              · simp only [List.mem_singleton] at hm
                subst hm
                exact Or.inr hqeq.symm
        · rw [lookup_updateVal_ne m w.test_id _ ht] at hv2
          obtain ⟨hnd, hiff⟩ := h3 t v2 hv2
          refine ⟨hnd, ?_⟩
          intro q
          rw [hiff q]
          constructor
          · rintro ⟨w2, hw2, hp⟩
            exact ⟨w2, List.mem_append_left _ hw2, hp⟩
          · rintro ⟨w2, hw2, hp⟩
            rcases List.mem_append.mp hw2 with hm | hm
            · exact ⟨w2, hm, hp⟩
            · simp only [List.mem_singleton] at hm
              subst hm
              exact absurd hp.1 (fun he => ht he.symm)

theorem buildByTest_inv (wrong_refs : List WrongRef) :
    ByTestInv (buildByTest wrong_refs) wrong_refs := by
  have hgen : ∀ (l : List WrongRef) (m : List (Nat × List Nat)) (pr : List WrongRef),
      ByTestInv m pr → ByTestInv (l.foldl addRefToByTest m) (pr ++ l) := by
    intro l
    induction l with
    | nil => intro m pr h; simpa using h
    | cons w rest ih =>
        intro m pr h
        have step := addRefToByTest_inv h w
        have := ih (addRefToByTest m w) (pr ++ [w]) step
        simpa using this
  have hbase : ByTestInv [] [] := by
    refine ⟨by simp, by simp [List.lookup], ?_⟩
    intro t v hv
    simp [List.lookup] at hv
  have := hgen wrong_refs [] [] hbase
  simpa [buildByTest] using this

theorem quizFromWrongStep_pos (resolve : Nat → Nat → Question)
    (acc : List Question × Option Nat) {tid : Nat} {ids : List Nat} (h : tid ≠ 0) :
    quizFromWrongStep resolve acc (tid, ids)
      = (acc.1 ++ get_test_questions_by_ids resolve tid ids, some tid) := by
  unfold quizFromWrongStep
  rw [if_pos (show (tid, ids).1 ≠ 0 from h)]

theorem quizFromWrongStep_neg (resolve : Nat → Nat → Question)
    (acc : List Question × Option Nat) {tid : Nat} {ids : List Nat} (h : ¬ tid ≠ 0) :
    quizFromWrongStep resolve acc (tid, ids) = acc := by
  unfold quizFromWrongStep
  rw [if_neg (show ¬ (tid, ids).1 ≠ 0 from h)]

theorem foldQuiz_fst (resolve : Nat → Nat → Question) :
    ∀ (l : List (Nat × List Nat)) (a : List Question) (t : Option Nat),
      (l.foldl (quizFromWrongStep resolve) (a, t)).1
        = a ++ ((l.filter (fun p => decide (p.1 ≠ 0))).map
            (fun p => p.2.map (resolve p.1))).flatten := by
  intro l
  induction l with
  | nil => intro a t; simp
  | cons p rest ih =>
      intro a t
      obtain ⟨tid, ids⟩ := p
      by_cases h0 : tid ≠ 0
      · rw [List.foldl_cons, quizFromWrongStep_pos resolve _ h0, ih,
          List.filter_cons_of_pos (by simpa using h0)]
        simp [get_test_questions_by_ids]
      · rw [List.foldl_cons, quizFromWrongStep_neg resolve _ h0, ih,
          List.filter_cons_of_neg (by simpa using h0)]

theorem foldQuiz_snd (resolve : Nat → Nat → Question) :
    ∀ (l : List (Nat × List Nat)) (a : List Question) (t : Option Nat),
      (l.foldl (quizFromWrongStep resolve) (a, t)).2
        = (((l.map Prod.fst).filter (fun x => decide (x ≠ 0))).getLast?).or t := by
  intro l
  induction l with
  | nil => intro a t; simp
  | cons p rest ih =>
      intro a t
      obtain ⟨tid, ids⟩ := p
      rw [List.foldl_cons, List.map_cons]
      by_cases h0 : tid ≠ 0
      · rw [quizFromWrongStep_pos resolve _ h0, ih,
          List.filter_cons_of_pos (by simpa using h0)]
        cases hfr : (rest.map Prod.fst).filter (fun x => decide (x ≠ 0)) with
        | nil => simp
        | cons y ys =>
            rw [List.getLast?_cons_cons]
            cases hgl : (y :: ys).getLast? with
            | none =>
                exact absurd (List.getLast?_eq_none_iff.mp hgl) (by simp)
            | some z => simp
      · rw [quizFromWrongStep_neg resolve _ h0, ih,
          List.filter_cons_of_neg (by simpa using h0)]

theorem count_groups_zero_of_not_key (resolve : Nat → Nat → Question)
    (hinj : ∀ t₁ q₁ t₂ q₂, resolve t₁ q₁ = resolve t₂ q₂ → t₁ = t₂ ∧ q₁ = q₂)
    (t₀ q₀ : Nat) :
    ∀ (G : List (Nat × List Nat)), t₀ ∉ G.map Prod.fst →
      ((G.map (fun p => p.2.map (resolve p.1))).flatten.count (resolve t₀ q₀)) = 0 := by
  intro G
  induction G with
  | nil => intro h; rfl
  | cons p rest ih =>
      intro h
      simp only [List.map_cons, List.mem_cons, not_or] at h
      simp only [List.map_cons, List.flatten_cons, List.count_append]
      rw [ih h.2]
      have hz : (p.2.map (resolve p.1)).count (resolve t₀ q₀) = 0 := by
        apply List.count_eq_zero.mpr
        intro hmem
        obtain ⟨q, hq, he⟩ := List.mem_map.mp hmem
        exact h.1 ((hinj p.1 q t₀ q₀ he).1.symm)
      omega

theorem count_groups_le_one (resolve : Nat → Nat → Question)
    (hinj : ∀ t₁ q₁ t₂ q₂, resolve t₁ q₁ = resolve t₂ q₂ → t₁ = t₂ ∧ q₁ = q₂)
    (t₀ q₀ : Nat) :
    ∀ (G : List (Nat × List Nat)), ((G.map Prod.fst).Nodup) →
      (∀ p ∈ G, p.2.Nodup) →
      ((G.map (fun p => p.2.map (resolve p.1))).flatten.count (resolve t₀ q₀)) ≤ 1 := by
  intro G
  induction G with
  | nil => intro _ _; simp
  | cons p rest ih =>
      intro hk hv
      simp only [List.map_cons, List.nodup_cons] at hk
      simp only [List.map_cons, List.flatten_cons, List.count_append]
      by_cases ht : p.1 = t₀
      · have hrest : ((rest.map (fun p => p.2.map (resolve p.1))).flatten.count
            (resolve t₀ q₀)) = 0 := by
          apply count_groups_zero_of_not_key resolve hinj
          rw [← ht]
          exact hk.1
        have hhead : (p.2.map (resolve p.1)).count (resolve t₀ q₀) ≤ 1 := by
          rw [ht]
          have hresinj : Function.Injective (resolve t₀) := by
            intro a b he
            exact (hinj t₀ a t₀ b he).2
          rw [List.count_map_of_injective _ _ hresinj]
          have := hv p (by simp)
          exact List.nodup_iff_count_le_one.mp this q₀
        omega
      · have hhead : (p.2.map (resolve p.1)).count (resolve t₀ q₀) = 0 := by
          apply List.count_eq_zero.mpr
          intro hmem
          obtain ⟨q, hq, he⟩ := List.mem_map.mp hmem
          exact ht (hinj p.1 q t₀ q₀ he).1
        rw [hhead]
        have := ih hk.2 (fun x hx => hv x (List.mem_cons_of_mem _ hx))
        omega

theorem count_groups_eq_one (resolve : Nat → Nat → Question)
    (hinj : ∀ t₁ q₁ t₂ q₂, resolve t₁ q₁ = resolve t₂ q₂ → t₁ = t₂ ∧ q₁ = q₂)
    (t₀ q₀ : Nat) :
    ∀ (G : List (Nat × List Nat)) (v : List Nat), ((G.map Prod.fst).Nodup) →
      (∀ p ∈ G, p.2.Nodup) → (t₀, v) ∈ G → q₀ ∈ v →
      ((G.map (fun p => p.2.map (resolve p.1))).flatten.count (resolve t₀ q₀)) = 1 := by
  intro G
  induction G with
  | nil => intro v _ _ hm; simp at hm
  | cons p rest ih =>
      intro v hk hv hm hq
      simp only [List.map_cons, List.nodup_cons] at hk
      simp only [List.map_cons, List.flatten_cons, List.count_append]
      rcases List.mem_cons.mp hm with he | he
      · subst he
        have hrest : ((rest.map (fun p => p.2.map (resolve p.1))).flatten.count
            (resolve t₀ q₀)) = 0 := by
          apply count_groups_zero_of_not_key resolve hinj
          exact hk.1
        have hresinj : Function.Injective (resolve t₀) := by
          intro a b hab
          exact (hinj t₀ a t₀ b hab).2
        have hhead : (v.map (resolve t₀)).count (resolve t₀ q₀) = 1 := by
          rw [List.count_map_of_injective _ _ hresinj]
          exact List.count_eq_one_of_mem (hv (t₀, v) (by simp)) hq
        rw [hhead, hrest]
      · have ht : p.1 ≠ t₀ := by
          intro he2
          apply hk.1
          rw [he2]
          exact List.mem_map.mpr ⟨(t₀, v), he, rfl⟩
        have hhead : (p.2.map (resolve p.1)).count (resolve t₀ q₀) = 0 := by
          apply List.count_eq_zero.mpr
          intro hmem
          obtain ⟨q, hq2, he2⟩ := List.mem_map.mp hmem
          exact ht (hinj p.1 q t₀ q₀ he2).1
        rw [hhead, ih v hk.2 (fun x hx => hv x (List.mem_cons_of_mem _ hx)) he hq]

/-- Claim C9: practising wrong answers selected across sessions deduplicates
by `(testId, questionId)`: under an injective repository resolver, the
started round contains each referenced pair's question at most once, and
each referenced pair with a truthy test id exactly once. -/
theorem start_from_wrong_dedup (resolve : Nat → Nat → Question)
    (hinj : ∀ t₁ q₁ t₂ q₂, resolve t₁ q₁ = resolve t₂ q₂ → t₁ = t₂ ∧ q₁ = q₂)
    (sh : Nat → List Question → List Question) (hsh : ∀ i l, (sh i l).Perm l)
    (user_id new_sid : Nat) (all_wrong : List WrongRef)
    (s₀ : QuizState) (effs : List Effect)
    (h : practiceSelected resolve sh user_id new_sid all_wrong = some (s₀, effs)) :
    (∀ t q, s₀.questions.count (resolve t q) ≤ 1) ∧
    (∀ w ∈ all_wrong, w.test_id ≠ 0 →
      s₀.questions.count (resolve w.test_id w.question_id) = 1) := by
  obtain ⟨hbk, hbnone, hbsome⟩ := buildByTest_inv (dedupRefs all_wrong)
  simp only [practiceSelected, _start_quiz_from_wrong] at h
  set bt := buildByTest (dedupRefs all_wrong) with hbt
  set acc := bt.foldl (quizFromWrongStep resolve) ([], none) with hacc
  by_cases hne : acc.1.isEmpty
  · rw [if_pos hne] at h
    exact Option.noConfusion h
  · rw [if_neg hne] at h
    have hpair := Option.some_injective _ h
    rw [Prod.mk.injEq] at hpair
    obtain ⟨hstate, heff⟩ := hpair
    have hq0 : s₀.questions = sh 0 acc.1 := by
      rw [← hstate]
    set G := bt.filter (fun p => decide (p.1 ≠ 0)) with hG
    have haccJ : acc.1 = ((G.map (fun p => p.2.map (resolve p.1))).flatten) := by
      rw [hacc, foldQuiz_fst resolve bt [] none, List.nil_append, hG]
    have hGk : (G.map Prod.fst).Nodup := ((List.filter_sublist bt).map Prod.fst).nodup hbk
    have hGv : ∀ p ∈ G, p.2.Nodup := by
      intro p hp
      have hpm : p ∈ bt := List.mem_of_mem_filter hp
      have hlk : bt.lookup p.1 = some p.2 := lookup_of_keysNodup hbk hpm
      exact (hbsome p.1 p.2 hlk).1
    have hcnt : ∀ t q, s₀.questions.count (resolve t q) = acc.1.count (resolve t q) := by
      intro t q
      rw [hq0]
      exact (hsh 0 acc.1).count_eq (resolve t q)
    constructor
    · intro t q
      rw [hcnt t q, haccJ]
      exact count_groups_le_one resolve hinj t q G hGk hGv
    · intro w hw hw0
      obtain ⟨w', hw', hpr⟩ := (dedupRefs_pairs all_wrong (refPair w)).mpr ⟨w, hw, rfl⟩
      have ht' : w'.test_id = w.test_id := congrArg Prod.fst hpr
      have hq' : w'.question_id = w.question_id := congrArg Prod.snd hpr
      cases hlk : bt.lookup w.test_id with
      | none => exact absurd ht' (hbnone w.test_id hlk w' hw')
      | some v =>
          have hqv : w.question_id ∈ v :=
            ((hbsome w.test_id v hlk).2 w.question_id).mpr ⟨w', hw', ht', hq'⟩
          have hmemG : (w.test_id, v) ∈ G :=
            List.mem_filter.mpr ⟨lookup_mem hlk, by simpa using hw0⟩
          rw [hcnt, haccJ]
          exact count_groups_eq_one resolve hinj w.test_id w.question_id G v hGk hGv
            hmemG hqv

/-- Witness for C9 at a concrete duplicate-containing reference list and an
injective pair-encoding resolver. -/
theorem start_from_wrong_dedup_witness :
    let resolveW : Nat → Nat → Question := fun t q =>
      { id := Nat.pair t q, tag := "", question := "", options := [],
        answer_index := 0, explanation := "" }
    let s₀ : QuizState :=
      { questions := [resolveW 1 5, resolveW 2 7], current_index := 0, score := 0,
        answered := false, selected_answer := none, wrong_questions := [],
        round_history := [], current_round := 1, current_test_id := 2,
        current_session_id := some 12, session_score_saved := false }
    (∀ t q, s₀.questions.count (resolveW t q) ≤ 1) ∧
    (∀ w ∈ ([{ test_id := 1, question_id := 5 }, { test_id := 1, question_id := 5 },
              { test_id := 2, question_id := 7 }] : List WrongRef), w.test_id ≠ 0 →
      s₀.questions.count (resolveW w.test_id w.question_id) = 1) :=
  start_from_wrong_dedup
    (fun t q =>
      { id := Nat.pair t q, tag := "", question := "", options := [],
        answer_index := 0, explanation := "" })
    (fun t₁ q₁ t₂ q₂ he => Nat.pair_eq_pair.mp (congrArg Question.id he))
    (fun _ l => l) (fun i l => List.Perm.refl l) 3 12 _ _
    [Effect.createSession 3 2 0 2] (by rfl)

/-- Claim C10: the practice-wrong flow keys both the created session record
and the session state to the last non-falsy test id encountered while
iterating the grouping map, and every answer submitted afterwards is
recorded against the state's single `current_test_id`, whatever question it
concerns; submit and advance never change that id. -/
theorem cross_test_attribution (resolve : Nat → Nat → Question)
    (sh : Nat → List Question → List Question) (user_id new_sid : Nat)
    (wrong_refs : List WrongRef) (s₀ : QuizState) (effs : List Effect)
    (h : _start_quiz_from_wrong resolve sh user_id new_sid wrong_refs
      = some (s₀, effs)) :
    (s₀.current_test_id
      = ((((buildByTest wrong_refs).map Prod.fst).filter
          (fun x => decide (x ≠ 0))).getLast?).getD 0 ∧
     Effect.createSession user_id s₀.current_test_id 0 s₀.questions.length ∈ effs) ∧
    (∀ (logged_in : Bool) (u : Nat) (s : QuizState) (i : Nat),
      (submitAnswer logged_in u s i).1.current_test_id = s.current_test_id ∧
      (∀ eff ∈ (submitAnswer logged_in u s i).2, ∃ qid c,
        eff = Effect.recordAnswer u s.current_test_id qid c s.current_session_id)) ∧
    (∀ s : QuizState, (advanceQuestion s).current_test_id = s.current_test_id) := by
  refine ⟨?_, ?_, fun s => rfl⟩
  · simp only [_start_quiz_from_wrong] at h
    set bt := buildByTest wrong_refs with hbt
    set acc := bt.foldl (quizFromWrongStep resolve) ([], none) with hacc
    by_cases hne : acc.1.isEmpty
    · rw [if_pos hne] at h
      exact Option.noConfusion h
    · rw [if_neg hne] at h
      have hpair := Option.some_injective _ h
      rw [Prod.mk.injEq] at hpair
      obtain ⟨hstate, heff⟩ := hpair
      have hsnd : acc.2 = (((bt.map Prod.fst).filter
          (fun x => decide (x ≠ 0))).getLast?) := by
        rw [hacc, foldQuiz_snd resolve bt [] none, Option.or_none]
      constructor
      · rw [← hstate]
        show acc.2.getD 0 = _
        rw [hsnd]
      · rw [← hstate, ← heff]
        simp
  · intro logged_in u s i
    constructor
    · rfl
    · intro eff heff
      simp only [submitAnswer] at heff
      by_cases hl : logged_in = true
      · rw [if_pos hl] at heff
        simp only [List.mem_singleton] at heff
        exact ⟨_, _, heff⟩
      · rw [if_neg hl] at heff
        simp at heff

/-- Witness for C10 at a concrete reference list spanning two tests. -/
theorem cross_test_attribution_witness :
    let resolveW : Nat → Nat → Question := fun t q =>
      { id := Nat.pair t q, tag := "", question := "", options := [],
        answer_index := 0, explanation := "" }
    let s₀ : QuizState :=
      { questions := [resolveW 1 5, resolveW 2 7], current_index := 0, score := 0,
        answered := false, selected_answer := none, wrong_questions := [],
        round_history := [], current_round := 1, current_test_id := 2,
        current_session_id := some 12, session_score_saved := false }
    let refs : List WrongRef :=
      [{ test_id := 1, question_id := 5 }, { test_id := 2, question_id := 7 }]
    (s₀.current_test_id
      = ((((buildByTest refs).map Prod.fst).filter
          (fun x => decide (x ≠ 0))).getLast?).getD 0 ∧
     Effect.createSession 3 s₀.current_test_id 0 s₀.questions.length ∈
       [Effect.createSession 3 2 0 2]) ∧
    (∀ (logged_in : Bool) (u : Nat) (s : QuizState) (i : Nat),
      (submitAnswer logged_in u s i).1.current_test_id = s.current_test_id ∧
      (∀ eff ∈ (submitAnswer logged_in u s i).2, ∃ qid c,
        eff = Effect.recordAnswer u s.current_test_id qid c s.current_session_id)) ∧
    (∀ s : QuizState, (advanceQuestion s).current_test_id = s.current_test_id) :=
  cross_test_attribution
    (fun t q =>
      { id := Nat.pair t q, tag := "", question := "", options := [],
        answer_index := 0, explanation := "" })
    (fun _ l => l) 3 12 _ _ _ (by rfl)
